import Mathlib

/-!
Verification development for the go-kcl Kinesis client library.

The Go sources are shallowly embedded below:
* `kinesis.go` — iterator-type constants, `Shard`, `Config`, `Stream`,
  `NewStream`, `Stream.Listen` (modelled by `processShard`, `processShards`,
  `tick`, `iterateTicks`, `listenN`) and `setInitialIterators`;
* `store.go` — the `Store` interface and the reference `LocalStore`
  implementation (a Go map keyed by `stream ++ "-" ++ shard`).

The remote Kinesis service is modelled as an oracle (`Kinesis`) giving the
result of each service call; `GetRecords` is additionally indexed by the
number of prior fetch calls so that successive fetches may answer
differently.  The listen loop produces an explicit trace of `Event`s so
that temporal claims about the loop can be stated.
-/

set_option maxHeartbeats 1000000

namespace KCL

/-- Embedding of the AWS SDK helper `aws.StringValue`: dereference a
`*string`, yielding the empty string for `nil`. -/
def StringValue : Option String → String
  | none => ""
  | some s => s

/-- Constant `IteratorTypeAtSequenceNumber` from kinesis.go. -/
def IteratorTypeAtSequenceNumber : String := "AT_SEQUENCE_NUMBER"

/-- Constant `IteratorTypeAfterSequenceNumber` from kinesis.go, transcribed
verbatim from the source. -/
def IteratorTypeAfterSequenceNumber : String := "AFTER_SEQUENCE_NUMER"

/-- Constant `IteratorTypeAtTimestamp` from kinesis.go. -/
def IteratorTypeAtTimestamp : String := "AT_TIMESTAMP"

/-- Constant `IteratorTypeTrimHorizon` from kinesis.go. -/
def IteratorTypeTrimHorizon : String := "TRIM_HORIZON"

/-- Constant `IteratorTypeLatest` from kinesis.go. -/
def IteratorTypeLatest : String := "LATEST"

/-- Modelled from the spec: the five initial-position policy identifiers
recognized by the remote service (README section "Iterator Types" and the
AWS `GetShardIteratorInput` documentation referenced by kinesis.go). -/
def serviceIteratorTypes : List String :=
  ["AT_SEQUENCE_NUMBER", "AFTER_SEQUENCE_NUMBER", "AT_TIMESTAMP",
   "TRIM_HORIZON", "LATEST"]

/-- Key used by `LocalStore`: `fmt.Sprintf("%s-%s", stream, shard)`. -/
def localKey (stream shard : String) : String := stream ++ "-" ++ shard

/-- Embedding of a Go map write `m[key] = v`: replace the binding when the
key is present, otherwise add it. -/
def mapSet : List (String × String) → String → String → List (String × String)
  | [], k, v => [(k, v)]
  | (k', v') :: rest, k, v =>
    if k' = k then (k, v) :: rest else (k', v') :: mapSet rest k v

/-- Embedding of a Go map read `m[key]`: the bound value, or the zero value
`""` when the key is absent. -/
def mapGet : List (String × String) → String → String
  | [], _ => ""
  | (k', v') :: rest, k => if k' = k then v' else mapGet rest k

/-- Number of bindings the map holds for a key. -/
def countKey : List (String × String) → String → Nat
  | [], _ => 0
  | (k', _) :: rest, k => (if k' = k then 1 else 0) + countKey rest k

/-- Structure `LocalStore` from store.go: a map from `stream ++ "-" ++ shard`
keys to iterator tokens.  The `sync.Mutex` field has no functional content;
its usage is embedded separately below. -/
structure LocalStore where
  m : List (String × String)
deriving Repr, DecidableEq

/-- Constructor `NewLocalStore` from store.go: an empty map. -/
def NewLocalStore : LocalStore := ⟨[]⟩

/-- Method `LocalStore.UpdateShardIterator`: store the iterator under the
stream-shard key; always returns a nil error. -/
def LocalStore.UpdateShardIterator (s : LocalStore)
    (stream shard iterator : String) : LocalStore × Option String :=
  (⟨mapSet s.m (localKey stream shard) iterator⟩, none)

/-- Method `LocalStore.GetShardIterator`: read the stream-shard key from the
map; always returns a nil error (a miss yields the Go zero value `""`). -/
def LocalStore.GetShardIterator (s : LocalStore)
    (stream shard : String) : String × Option String :=
  (mapGet s.m (localKey stream shard), none)

/-- Mutex discipline of `LocalStore.UpdateShardIterator`: the method acquires
`s.mutex` around the map write (store.go). -/
def LocalStore.updateShardIteratorLocksMutex : Bool := true

/-- Mutex discipline of `LocalStore.GetShardIterator`: the method reads the
map without acquiring `s.mutex` (store.go: "We do not require a lock here,
because we are simply reading"). -/
def LocalStore.getShardIteratorLocksMutex : Bool := false

/-- Interface `Store` from store.go, as a record of operations over a
store-state type `σ`.  Each operation returns the Go error value
(`Option String`, `none` being nil). -/
structure Store (σ : Type) where
  GetShardIterator : σ → String → String → String × Option String
  UpdateShardIterator : σ → String → String → String → σ × Option String

/-- Bundle of the `Store` operations furnished by `LocalStore`. -/
def LocalStore.store : Store LocalStore :=
  { GetShardIterator := LocalStore.GetShardIterator
    UpdateShardIterator := LocalStore.UpdateShardIterator }

/-- Apply a list of `UpdateShardIterator` calls `(stream, shard, iterator)`
to a `LocalStore`, in order. -/
def applyUpdates : LocalStore → List (String × String × String) → LocalStore
  | st, [] => st
  | st, (s, h, v) :: rest =>
    applyUpdates (st.UpdateShardIterator s h v).1 rest

/-- Value of the last update in the list whose derived key
`stream ++ "-" ++ shard` equals `k`, if any. -/
def lastWriteForKey (k : String) : List (String × String × String) → Option String
  | [] => none
  | (s, h, v) :: rest =>
    match lastWriteForKey k rest with
    | some w => some w
    | none => if localKey s h = k then some v else none

/-- A Kinesis record (opaque payload, as delivered to the handler). -/
structure KRecord where
  SequenceNumber : String
  Data : String
deriving Repr, DecidableEq

/-- Output of a `GetRecords` service call: the batch and the (nilable) next
shard iterator. -/
structure GetRecordsOutput where
  Records : List KRecord
  NextShardIterator : Option String
deriving Repr, DecidableEq

/-- Output of a `GetShardIterator` service call. -/
structure GetShardIteratorOutput where
  ShardIterator : Option String
deriving Repr, DecidableEq

/-- One shard of a `DescribeStream` response: its id and the starting
sequence number of its sequence-number range. -/
structure ShardDescription where
  ShardId : Option String
  StartingSequenceNumber : Option String
deriving Repr, DecidableEq

/-- Oracle for the remote Kinesis service.  `GetShardIterator` takes the
shard id, iterator type and stream name; `GetRecords` additionally takes
the number of `GetRecords` calls issued before it, so that successive
fetches may answer differently. -/
structure Kinesis where
  DescribeStream : String → Except String (List ShardDescription)
  GetShardIterator : String → String → String → Except String GetShardIteratorOutput
  GetRecords : Nat → Int → String → Except String GetRecordsOutput

/-- Structure `Shard` from kinesis.go. -/
structure Shard where
  ID : String
  StartAt : String
deriving Repr, DecidableEq

/-- Structure `Config` from kinesis.go (`Interval` is a duration in
nanoseconds). -/
structure Config where
  Interval : Int
  IteratorType : String
  Limit : Int
deriving Repr, DecidableEq

/-- Structure `Stream` from kinesis.go; the service, store and logger
references are passed to the operations as parameters. -/
structure Stream where
  Shards : List Shard
  Name : String
  config : Config
deriving Repr, DecidableEq

instance instDecEqExcept {ε α : Type} [DecidableEq ε] [DecidableEq α] :
    DecidableEq (Except ε α) := fun x y =>
  match x, y with
  | .ok a, .ok b =>
    if h : a = b then .isTrue (by rw [h])
    else .isFalse fun hh => h (Except.ok.inj hh)
  | .ok _, .error _ => .isFalse fun hh => Except.noConfusion hh
  | .error _, .ok _ => .isFalse fun hh => Except.noConfusion hh
  | .error e, .error f =>
    if h : e = f then .isTrue (by rw [h])
    else .isFalse fun hh => h (Except.error.inj hh)

/-- An observable step of the seeding phase or the listen loop. -/
inductive Event where
  | seedIter (shard : String) (res : Except String GetShardIteratorOutput)
  | seedStore (shard token : String) (err : Option String)
  | storeGet (shard : String) (res : String × Option String)
  | fetch (shard iterator : String) (res : Except String GetRecordsOutput)
  | dispatch (records : List KRecord)
  | storeSet (shard token : String) (err : Option String)
deriving Repr, DecidableEq

/-- Outcome of running part of the loop: still going with state `a`, or the
enclosing Go function executed `return err` with that error value. -/
inductive StepRes (α : Type) where
  | ok (a : α)
  | ret (err : Option String)
deriving Repr, DecidableEq

/-- Mutable state of the listen loop: the store and the number of
`GetRecords` calls issued so far (the oracle index). -/
structure TickState (σ : Type) where
  store : σ
  fetchCount : Nat

/-- Constructor `NewStream` from kinesis.go: describe the stream, build the
shard directory, and fail when it is empty.  The store is returned
untouched together with the (empty) list of store operations construction
performs. -/
def NewStream {σ : Type} (svc : Kinesis) (stream : String) (σ0 : σ)
    (config : Config) : Except String Stream × σ × List Event :=
  match svc.DescribeStream stream with
  | .error e => (.error e, σ0, [])
  | .ok described =>
    let shards := described.map fun sd =>
      { ID := StringValue sd.ShardId
        StartAt := StringValue sd.StartingSequenceNumber : Shard }
    if shards.length = 0 then
      (.error "kcl: stream has 0 shards", σ0, [])
    else
      (.ok { Shards := shards, Name := stream, config := config }, σ0, [])

/-- Body of the inner per-shard loop of `Stream.Listen`: read the position,
fetch records with it, dispatch the batch to the handler, write back the
next token (`aws.StringValue(resp.NextShardIterator)`).  Any non-nil
error makes `Listen` return it. -/
def processShard {σ : Type} (ops : Store σ) (svc : Kinesis) (s : Stream)
    (sh : Shard) (st : TickState σ) : List Event × StepRes (TickState σ) :=
  let g := ops.GetShardIterator st.store s.Name sh.ID
  match g.2 with
  | some e => ([.storeGet sh.ID g], .ret (some e))
  | none =>
    match svc.GetRecords st.fetchCount s.config.Limit g.1 with
    | .error e => ([.storeGet sh.ID g, .fetch sh.ID g.1 (.error e)], .ret (some e))
    | .ok resp =>
      let u := ops.UpdateShardIterator st.store s.Name sh.ID
        (StringValue resp.NextShardIterator)
      ([.storeGet sh.ID g, .fetch sh.ID g.1 (.ok resp), .dispatch resp.Records,
        .storeSet sh.ID (StringValue resp.NextShardIterator) u.2],
       match u.2 with
       | some e => .ret (some e)
       | none => .ok ⟨u.1, st.fetchCount + 1⟩)

/-- Loop `for _, shard := range s.Shards` of one tick of `Stream.Listen`. -/
def processShards {σ : Type} (ops : Store σ) (svc : Kinesis) (s : Stream) :
    List Shard → TickState σ → List Event × StepRes (TickState σ)
  | [], st => ([], .ok st)
  | sh :: rest, st =>
    match processShard ops svc s sh st with
    | (tr1, .ret e) => (tr1, .ret e)
    | (tr1, .ok st1) =>
      match processShards ops svc s rest st1 with
      | (tr2, r2) => (tr1 ++ tr2, r2)

/-- One tick of `Stream.Listen`: process every shard of the directory in
order. -/
def tick {σ : Type} (ops : Store σ) (svc : Kinesis) (s : Stream)
    (st : TickState σ) : List Event × StepRes (TickState σ) :=
  processShards ops svc s s.Shards st

/-- Body of the loop of `setInitialIterators` for one shard: request a
starting iterator for the configured iterator type and store
`aws.StringValue(resp.ShardIterator)`. -/
def seedShard {σ : Type} (ops : Store σ) (svc : Kinesis) (s : Stream)
    (sh : Shard) (σ0 : σ) : List Event × StepRes σ :=
  match svc.GetShardIterator sh.ID s.config.IteratorType s.Name with
  | .error e => ([.seedIter sh.ID (.error e)], .ret (some e))
  | .ok resp =>
    let u := ops.UpdateShardIterator σ0 s.Name sh.ID
      (StringValue resp.ShardIterator)
    ([.seedIter sh.ID (.ok resp),
      .seedStore sh.ID (StringValue resp.ShardIterator) u.2],
     match u.2 with
     | some e => .ret (some e)
     | none => .ok u.1)

/-- Loop of `setInitialIterators` over a list of shards. -/
def seedShards {σ : Type} (ops : Store σ) (svc : Kinesis) (s : Stream) :
    List Shard → σ → List Event × StepRes σ
  | [], σ0 => ([], .ok σ0)
  | sh :: rest, σ0 =>
    match seedShard ops svc s sh σ0 with
    | (tr1, .ret e) => (tr1, .ret e)
    | (tr1, .ok σ1) =>
      match seedShards ops svc s rest σ1 with
      | (tr2, r2) => (tr1 ++ tr2, r2)

/-- Function `setInitialIterators` from kinesis.go: seed a starting position
for every shard of the stream. -/
def setInitialIterators {σ : Type} (ops : Store σ) (svc : Kinesis)
    (s : Stream) (σ0 : σ) : List Event × StepRes σ :=
  seedShards ops svc s s.Shards σ0

/-- Iterations of the ticker loop of `Stream.Listen`, run `n` times. -/
def iterateTicks {σ : Type} (ops : Store σ) (svc : Kinesis) (s : Stream) :
    Nat → TickState σ → List Event × StepRes (TickState σ)
  | 0, st => ([], .ok st)
  | n + 1, st =>
    match tick ops svc s st with
    | (tr1, .ret e) => (tr1, .ret e)
    | (tr1, .ok st1) =>
      match iterateTicks ops svc s n st1 with
      | (tr2, r2) => (tr1 ++ tr2, r2)

/-- Method `Stream.Listen`, run for `n` ticks: seed the initial iterators,
then tick `n` times.  `StepRes.ret e` means `Listen` returned with the Go
error value `e`; `StepRes.ok` means the loop is still running after `n`
ticks. -/
def listenN {σ : Type} (ops : Store σ) (svc : Kinesis) (s : Stream) (σ0 : σ)
    (n : Nat) : List Event × StepRes (TickState σ) :=
  match setInitialIterators ops svc s σ0 with
  | (tr0, .ret e) => (tr0, .ret e)
  | (tr0, .ok σ1) =>
    match iterateTicks ops svc s n ⟨σ1, 0⟩ with
    | (tr1, r1) => (tr0 ++ tr1, r1)

/-- Fetch events of a trace, as (shard, iterator, response) triples in order. -/
def fetchEvents : List Event → List (String × String × Except String GetRecordsOutput)
  | [] => []
  | .fetch sh it res :: tr => (sh, it, res) :: fetchEvents tr
  | _ :: tr => fetchEvents tr

/-- Whether the operation recorded by an event succeeded (dispatching to the
handler always does: the loop never observes the handler). -/
def Event.isOk : Event → Bool
  | .seedIter _ (Except.ok _) => true
  | .seedIter _ (Except.error _) => false
  | .seedStore _ _ e => e.isNone
  | .storeGet _ r => r.2.isNone
  | .fetch _ _ (Except.ok _) => true
  | .fetch _ _ (Except.error _) => false
  | .dispatch _ => true
  | .storeSet _ _ e => e.isNone

/-- The Go error value produced by the operation an event records. -/
def Event.errOf : Event → Option String
  | .seedIter _ (Except.error e) => some e
  | .seedIter _ (Except.ok _) => none
  | .seedStore _ _ e => e
  | .storeGet _ r => r.2
  | .fetch _ _ (Except.error e) => some e
  | .fetch _ _ (Except.ok _) => none
  | .dispatch _ => none
  | .storeSet _ _ e => e

/-- Token `setInitialIterators` would store for a shard id: the
`aws.StringValue` of the iterator returned by the seeding service call. -/
def seedTok (svc : Kinesis) (s : Stream) (id : String) : String :=
  match svc.GetShardIterator id s.config.IteratorType s.Name with
  | .ok o => StringValue o.ShardIterator
  | .error _ => ""

/-- Every operation recorded in the trace succeeded. -/
def AllOk (tr : List Event) : Prop := ∀ ev ∈ tr, ev.isOk = true

/-- The trace ends in exactly one failed operation whose error is `e`: every
earlier operation succeeded and the last event carries the error. -/
def Aborts (tr : List Event) (e : Option String) : Prop :=
  ∃ msg, e = some msg ∧ (∀ ev ∈ tr.dropLast, ev.isOk = true) ∧
    ∃ last, tr.getLast? = some last ∧ last.errOf = some msg

/-- The fetch triples chain from `pos`: the first fetch uses `pos`, and each
later fetch uses the `aws.StringValue` of the next-shard-iterator returned
by the previous (successful) fetch. -/
def fetchChainFrom : String → List (String × String × Except String GetRecordsOutput) → Prop
  | _, [] => True
  | pos, (_, it, res) :: rest =>
    it = pos ∧
      match res with
      | .ok r => fetchChainFrom (StringValue r.NextShardIterator) rest
      | .error _ => rest = []

/-- Every successful fetch event is followed two events later by the store
write of the returned next-iterator token (with a nil store error). -/
def FetchSetAligned (tr : List Event) : Prop :=
  ∀ j a it r, tr[j]? = some (.fetch a it (Except.ok r)) →
    tr[j+2]? = some (.storeSet a (StringValue r.NextShardIterator) none)

/-- Every shard of the stream has a non-empty stored position. -/
def GoodPos (s : Stream) (σ : LocalStore) : Prop :=
  ∀ sh ∈ s.Shards, mapGet σ.m (localKey s.Name sh.ID) ≠ ""

/-- A single-shard stream fixture. -/
def sOne : Stream :=
  { Shards := [⟨"sh", "0"⟩], Name := "st", config := ⟨1000, "LATEST", 100⟩ }

/-- Service oracle whose fetches return no next-shard-iterator token. -/
def svcNilNext : Kinesis :=
  { DescribeStream := fun _ => .ok []
    GetShardIterator := fun _ _ _ => .ok ⟨some "it0"⟩
    GetRecords := fun _ _ _ => .ok ⟨[], none⟩ }

/-- Service oracle whose describe call reports zero shards. -/
def svcNoShards : Kinesis :=
  { DescribeStream := fun _ => .ok []
    GetShardIterator := fun _ _ _ => .ok ⟨some "it-0"⟩
    GetRecords := fun _ _ _ => .ok ⟨[], some "it-1"⟩ }

/-- Service oracle whose describe call fails. -/
def svcDescribeFails : Kinesis :=
  { DescribeStream := fun _ => .error "describe boom"
    GetShardIterator := fun _ _ _ => .ok ⟨some "it-0"⟩
    GetRecords := fun _ _ _ => .ok ⟨[], some "it-1"⟩ }

/-- Service oracle whose fetches always fail. -/
def svcFetchFail : Kinesis :=
  { DescribeStream := fun _ => .ok []
    GetShardIterator := fun _ _ _ => .ok ⟨some "it0"⟩
    GetRecords := fun _ _ _ => .error "boom" }

/-- Service oracle that never fails. -/
def svcAllOk : Kinesis :=
  { DescribeStream := fun _ => .ok []
    GetShardIterator := fun _ _ _ => .ok ⟨some "it0"⟩
    GetRecords := fun _ _ _ => .ok ⟨[], some "n"⟩ }

/-- Trace of one listen iteration of `sOne` against `svcFetchFail`. -/
def trFF : List Event :=
  [.seedIter "sh" (.ok ⟨some "it0"⟩), .seedStore "sh" "it0" none,
   .storeGet "sh" ("it0", none), .fetch "sh" "it0" (.error "boom")]

/-- Trace of one listen iteration of `sOne` against `svcAllOk`. -/
def trOkW : List Event :=
  [.seedIter "sh" (.ok ⟨some "it0"⟩), .seedStore "sh" "it0" none,
   .storeGet "sh" ("it0", none), .fetch "sh" "it0" (.ok ⟨[], some "n"⟩),
   .dispatch [], .storeSet "sh" "n" none]

/-- State after one listen iteration of `sOne` against `svcAllOk`. -/
def stOkW : TickState LocalStore := ⟨⟨[("st-sh", "n")]⟩, 1⟩

/-- A two-shard stream fixture. -/
def sTwo : Stream :=
  { Shards := [⟨"a", "0"⟩, ⟨"b", "0"⟩], Name := "st2",
    config := ⟨1000, "LATEST", 100⟩ }

/-- A store state holding positions for both shards of `sTwo`. -/
def stC3 : TickState LocalStore := ⟨⟨[("st2-a", "ita"), ("st2-b", "itb")]⟩, 0⟩

/-- Tick trace of `sTwo` against `svcFetchFail` from `stC3`. -/
def trC3 : List Event :=
  [.storeGet "a" ("ita", none), .fetch "a" "ita" (.error "boom")]

/-- Seeding service oracle returning a distinct token per shard. -/
def svcSeedW : Kinesis :=
  { DescribeStream := fun _ => .ok []
    GetShardIterator := fun id _ _ => .ok ⟨some ("seed-" ++ id)⟩
    GetRecords := fun _ _ _ => .ok ⟨[], some "n"⟩ }

/-- Seeding trace of `sTwo` against `svcSeedW`. -/
def trSeedW : List Event :=
  [.seedIter "a" (.ok ⟨some "seed-a"⟩), .seedStore "a" "seed-a" none,
   .seedIter "b" (.ok ⟨some "seed-b"⟩), .seedStore "b" "seed-b" none]

/-- Store seeded for `sTwo` by `svcSeedW`. -/
def σSeedW : LocalStore := ⟨[("st2-a", "seed-a"), ("st2-b", "seed-b")]⟩

/-- Service oracle issuing a fresh chained token on every fetch. -/
def svcChainW : Kinesis :=
  { DescribeStream := fun _ => .ok []
    GetShardIterator := fun _ _ _ => .ok ⟨some "it0"⟩
    GetRecords := fun i _ _ => .ok ⟨[], some ("n" ++ toString i)⟩ }

/-- Trace of two listen iterations of `sOne` against `svcChainW`. -/
def trChainW : List Event :=
  [.seedIter "sh" (.ok ⟨some "it0"⟩), .seedStore "sh" "it0" none,
   .storeGet "sh" ("it0", none),
   .fetch "sh" "it0" (.ok ⟨[], some "n0"⟩), .dispatch [],
   .storeSet "sh" "n0" none,
   .storeGet "sh" ("n0", none),
   .fetch "sh" "n0" (.ok ⟨[], some "n1"⟩), .dispatch [],
   .storeSet "sh" "n1" none]

theorem mapGet_mapSet (m : List (String × String)) (k v k' : String) :
    mapGet (mapSet m k v) k' = if k' = k then v else mapGet m k' := by
  induction m with
  | nil =>
    by_cases h : k' = k
    · simp [mapSet, mapGet, h]
    · have h2 : ¬ k = k' := fun hh => h hh.symm
      simp [mapSet, mapGet, h, h2]
  | cons hd tl ih =>
    obtain ⟨k0, v0⟩ := hd
    by_cases h0 : k0 = k
    · by_cases h1 : k' = k
      · simp [mapSet, mapGet, h0, h1]
      · have h2 : ¬ k = k' := fun hh => h1 hh.symm
        have h3 : ¬ k0 = k' := fun hh => h2 (h0.symm.trans hh)
        simp only [mapSet, if_pos h0, mapGet, if_neg h2, if_neg h1, if_neg h3]
    · by_cases h1 : k0 = k'
      · have h2 : ¬ k' = k := fun hh => h0 (h1.trans hh)
        simp only [mapSet, if_neg h0, mapGet, if_pos h1, if_neg h2]
      · simp only [mapSet, if_neg h0, mapGet, if_neg h1, ih]

theorem countKey_mapSet_self (m : List (String × String)) (k v : String)
    (h : countKey m k ≤ 1) : countKey (mapSet m k v) k = 1 := by
  induction m with
  | nil => simp [mapSet, countKey]
  | cons hd tl ih =>
    obtain ⟨k0, v0⟩ := hd
    by_cases h0 : k0 = k
    · simp only [countKey, if_pos h0] at h
      have htl : countKey tl k = 0 := by omega
      simp [mapSet, countKey, h0, htl]
    · simp only [countKey, if_neg h0] at h
      have h' : countKey tl k ≤ 1 := by omega
      simp [mapSet, countKey, h0, ih h']

theorem countKey_mapSet_other (m : List (String × String)) (k v k' : String)
    (h : k' ≠ k) : countKey (mapSet m k v) k' = countKey m k' := by
  induction m with
  | nil =>
    have h2 : ¬ k = k' := fun hh => h hh.symm
    simp [mapSet, countKey, h2]
  | cons hd tl ih =>
    obtain ⟨k0, v0⟩ := hd
    by_cases h0 : k0 = k
    · simp only [mapSet, if_pos h0, countKey]
      rw [h0]
    · simp only [mapSet, if_neg h0, countKey, ih]

theorem countKey_mapSet_le (m : List (String × String)) (k v k' : String)
    (h : countKey m k' ≤ 1) (hk : countKey m k ≤ 1) :
    countKey (mapSet m k v) k' ≤ 1 := by
  by_cases he : k' = k
  · subst he
    simp [countKey_mapSet_self m k' v hk]
  · simp [countKey_mapSet_other m k v k' he, h]

theorem applyUpdates_mapGet (ops : List (String × String × String))
    (st : LocalStore) (k : String) :
    mapGet (applyUpdates st ops).m k =
      (lastWriteForKey k ops).getD (mapGet st.m k) := by
  induction ops generalizing st with
  | nil => simp [applyUpdates, lastWriteForKey]
  | cons hd tl ih =>
    obtain ⟨s1, h1, v1⟩ := hd
    simp only [applyUpdates, LocalStore.UpdateShardIterator, lastWriteForKey]
    rw [ih]
    cases hlw : lastWriteForKey k tl with
    | some w => simp
    | none =>
      by_cases hk : localKey s1 h1 = k
      · have hk' : k = localKey s1 h1 := hk.symm
        simp only [Option.getD_none, mapGet_mapSet, if_pos hk', if_pos hk,
          Option.getD_some]
      · have hk2 : ¬ k = localKey s1 h1 := fun hh => hk hh.symm
        simp only [Option.getD_none, mapGet_mapSet, if_neg hk2, if_neg hk]

/-- Within one stream the derived key determines the shard. -/
theorem localKey_inj {s a b : String} (h : localKey s a = localKey s b) :
    a = b := by
  unfold localKey at h
  have hd : (s ++ "-" ++ a).data = (s ++ "-" ++ b).data := congrArg String.data h
  simp only [String.data_append] at hd
  exact String.ext (List.append_cancel_left hd)

/-- C5 counterexample: the pairs ("x-y", "z") and ("x", "y-z") are distinct,
yet writing the second changes what `GetShardIterator` returns for the
first, because both derive the key "x-y-z". -/
theorem updateShardIterator_cross_key_collision :
    (("x-y", "z") ≠ (("x" : String), ("y-z" : String))) ∧
    (LocalStore.GetShardIterator
        (NewLocalStore.UpdateShardIterator "x" "y-z" "v2").1 "x-y" "z").1 ≠
      (LocalStore.GetShardIterator NewLocalStore "x-y" "z").1 := by
  constructor
  · decide
  · decide

/-- C5 (amended): an `UpdateShardIterator` for a pair whose derived key
`stream ++ "-" ++ shard` differs from that of another pair leaves the
`GetShardIterator` result of the other pair unchanged. -/
theorem updateShardIterator_distinct_key_frame
    (st : LocalStore) (s1 h1 s2 h2 v : String)
    (hne : localKey s1 h1 ≠ localKey s2 h2) :
    LocalStore.GetShardIterator (st.UpdateShardIterator s2 h2 v).1 s1 h1 =
      st.GetShardIterator s1 h1 := by
  simp only [LocalStore.GetShardIterator, LocalStore.UpdateShardIterator,
    mapGet_mapSet, if_neg hne]

/-- C5 witness: the amended frame property at a concrete input. -/
theorem updateShardIterator_distinct_key_frame_witness :
    LocalStore.GetShardIterator
        (NewLocalStore.UpdateShardIterator "orders" "shard-1" "tok").1
        "orders" "shard-0" =
      NewLocalStore.GetShardIterator "orders" "shard-0" :=
  updateShardIterator_distinct_key_frame NewLocalStore "orders" "shard-0"
    "orders" "shard-1" "tok" (by decide)

/-- C7 counterexample: after updating the pair ("a-b", "c") with "v1" and
then the distinct pair ("a", "b-c") with "v2", a read of ("a-b", "c")
returns "v2", not the value most recently written for that same pair. -/
theorem getShardIterator_roundtrip_collision :
    (LocalStore.GetShardIterator
        (applyUpdates NewLocalStore
          [("a-b", "c", "v1"), ("a", "b-c", "v2")]) "a-b" "c").1 = "v2" ∧
    ("v2" : String) ≠ "v1" := by
  constructor
  · decide
  · decide

/-- C7 (amended): `GetShardIterator` returns, with a nil error, the value of
the most recent `UpdateShardIterator` whose derived key
`stream ++ "-" ++ shard` coincides with that of the queried pair, and the
empty string with a nil error when no update wrote that key. -/
theorem getShardIterator_last_write_per_key
    (ops : List (String × String × String)) (s h : String) :
    LocalStore.GetShardIterator (applyUpdates NewLocalStore ops) s h =
      ((lastWriteForKey (localKey s h) ops).getD "", none) := by
  simp only [LocalStore.GetShardIterator, applyUpdates_mapGet, NewLocalStore,
    mapGet]

/-- C8: the after-sequence-number constant is misspelled — it differs from
the service-recognized identifier "AFTER_SEQUENCE_NUMBER", while the four
other constants are recognized identifiers. -/
theorem iteratorTypeAfterSequenceNumber_misspelled :
    IteratorTypeAfterSequenceNumber = "AFTER_SEQUENCE_NUMER" ∧
    IteratorTypeAfterSequenceNumber ≠ "AFTER_SEQUENCE_NUMBER" ∧
    IteratorTypeAfterSequenceNumber ∉ serviceIteratorTypes ∧
    IteratorTypeAtSequenceNumber ∈ serviceIteratorTypes ∧
    IteratorTypeAtTimestamp ∈ serviceIteratorTypes ∧
    IteratorTypeTrimHorizon ∈ serviceIteratorTypes ∧
    IteratorTypeLatest ∈ serviceIteratorTypes := by
  refine ⟨rfl, by decide, by decide, by decide, by decide, by decide, by decide⟩

/-- C9: the reference store's read path takes no lock while the write path
does — there is no single mutual-exclusion lock guarding both paths of
the backing map. -/
theorem localStore_read_path_unlocked :
    LocalStore.getShardIteratorLocksMutex = false ∧
    LocalStore.updateShardIteratorLocksMutex = true := by
  constructor
  · rfl
  · rfl

/-- C4: when the describe call reports zero shards, `NewStream` returns the
no-shards error and no stream handle, and when the describe call fails,
`NewStream` propagates its error; in both cases the store is returned
untouched and no store operation was performed. -/
theorem newStream_zero_shards_fails {σ : Type} (svc1 svc2 : Kinesis)
    (name : String) (σ0 : σ) (config : Config) (e : String)
    (h1 : svc1.DescribeStream name = .ok [])
    (h2 : svc2.DescribeStream name = .error e) :
    NewStream svc1 name σ0 config =
      (.error "kcl: stream has 0 shards", σ0, []) ∧
    NewStream svc2 name σ0 config = (.error e, σ0, []) := by
  constructor
  · simp [NewStream, h1]
  · simp [NewStream, h2]

/-- C4 witness: the construction-failure theorem at concrete inputs. -/
theorem newStream_zero_shards_fails_witness :
    NewStream svcNoShards "orders" NewLocalStore ⟨1000, "LATEST", 100⟩ =
      (.error "kcl: stream has 0 shards", NewLocalStore, []) ∧
    NewStream svcDescribeFails "orders" NewLocalStore ⟨1000, "LATEST", 100⟩ =
      (.error "describe boom", NewLocalStore, []) :=
  newStream_zero_shards_fails svcNoShards svcDescribeFails "orders"
    NewLocalStore ⟨1000, "LATEST", 100⟩ "describe boom" rfl rfl

/-- C6 counterexample: running two ticks against a service whose fetch
response carries no next-iterator token, the loop issues the second
`GetRecords` call with the empty iterator string. -/
theorem listen_fetches_empty_iterator_after_nil_token :
    Event.fetch "sh" "" (Except.ok ⟨[], none⟩) ∈
      (listenN LocalStore.store svcNilNext sOne NewLocalStore 2).1 := by
  decide

theorem allOk_append {tr1 tr2 : List Event} (h1 : AllOk tr1) (h2 : AllOk tr2) :
    AllOk (tr1 ++ tr2) := by
  intro ev hev
  rcases List.mem_append.mp hev with h | h
  · exact h1 ev h
  · exact h2 ev h

theorem aborts_append {tr1 tr2 : List Event} {e : Option String}
    (h1 : AllOk tr1) (h2 : Aborts tr2 e) : Aborts (tr1 ++ tr2) e := by
  obtain ⟨msg, he, hpre, last, hlast, herr⟩ := h2
  have hne : tr2 ≠ [] := by
    intro hnil; subst hnil; simp at hlast
  refine ⟨msg, he, ?_, last, ?_, herr⟩
  · rw [List.dropLast_append_of_ne_nil tr1 hne]
    intro ev hev
    rcases List.mem_append.mp hev with h | h
    · exact h1 ev h
    · exact hpre ev h
  · rw [List.getLast?_append_of_ne_nil tr1 hne]
    exact hlast

theorem processShard_ok_allOk {σ : Type} {ops : Store σ} {svc : Kinesis}
    {s : Stream} {sh : Shard} {st : TickState σ} {tr : List Event}
    {st' : TickState σ}
    (h : processShard ops svc s sh st = (tr, .ok st')) : AllOk tr := by
  unfold processShard at h
  cases hg : (ops.GetShardIterator st.store s.Name sh.ID).2 with
  | some e => simp [hg] at h
  | none =>
    simp only [hg] at h
    cases hr : svc.GetRecords st.fetchCount s.config.Limit
        (ops.GetShardIterator st.store s.Name sh.ID).1 with
    | error e => simp [hr] at h
    | ok resp =>
      simp only [hr] at h
      cases hu : (ops.UpdateShardIterator st.store s.Name sh.ID
          (StringValue resp.NextShardIterator)).2 with
      | some e => simp [hu] at h
      | none =>
        simp only [hu] at h
        obtain ⟨htr, _⟩ := Prod.mk.inj h
        subst htr
        intro ev hev
        simp only [List.mem_cons, List.mem_singleton] at hev
        rcases hev with rfl | rfl | rfl | rfl | hfalse
        · simp [Event.isOk, hg]
        · simp [Event.isOk]
        · simp [Event.isOk]
        · simp [Event.isOk, hu]
        · simp at hfalse

theorem processShard_ret_aborts {σ : Type} {ops : Store σ} {svc : Kinesis}
    {s : Stream} {sh : Shard} {st : TickState σ} {tr : List Event}
    {e : Option String}
    (h : processShard ops svc s sh st = (tr, .ret e)) : Aborts tr e := by
  unfold processShard at h
  cases hg : (ops.GetShardIterator st.store s.Name sh.ID).2 with
  | some e0 =>
    simp only [hg] at h
    obtain ⟨htr, hres⟩ := Prod.mk.inj h
    subst htr
    refine ⟨e0, (StepRes.ret.inj hres).symm, ?_, ?_⟩
    · intro ev hev; simp at hev
    · exact ⟨_, rfl, by simp [Event.errOf, hg]⟩
  | none =>
    simp only [hg] at h
    cases hr : svc.GetRecords st.fetchCount s.config.Limit
        (ops.GetShardIterator st.store s.Name sh.ID).1 with
    | error e0 =>
      simp only [hr] at h
      obtain ⟨htr, hres⟩ := Prod.mk.inj h
      subst htr
      refine ⟨e0, (StepRes.ret.inj hres).symm, ?_, ?_⟩
      · intro ev hev
        simp only [List.dropLast, List.mem_singleton] at hev
        subst hev
        simp [Event.isOk, hg]
      · exact ⟨_, rfl, by simp [Event.errOf]⟩
    | ok resp =>
      simp only [hr] at h
      cases hu : (ops.UpdateShardIterator st.store s.Name sh.ID
          (StringValue resp.NextShardIterator)).2 with
      | some e0 =>
        simp only [hu] at h
        obtain ⟨htr, hres⟩ := Prod.mk.inj h
        subst htr
        refine ⟨e0, (StepRes.ret.inj hres).symm, ?_, ?_⟩
        · intro ev hev
          simp only [List.dropLast, List.mem_cons, List.not_mem_nil,
            or_false] at hev
          rcases hev with rfl | rfl | rfl
          · simp [Event.isOk, hg]
          · simp [Event.isOk]
          · simp [Event.isOk]
        · exact ⟨_, rfl, by simp [Event.errOf, hu]⟩
      | none => simp [hu] at h

theorem processShards_ok_allOk {σ : Type} (ops : Store σ) (svc : Kinesis)
    (s : Stream) :
    ∀ (shards : List Shard) (st : TickState σ) (tr : List Event)
      (st' : TickState σ),
    processShards ops svc s shards st = (tr, .ok st') → AllOk tr := by
  intro shards
  induction shards with
  | nil =>
    intro st tr st' h
    simp only [processShards] at h
    obtain ⟨htr, _⟩ := Prod.mk.inj h
    subst htr
    intro ev hev
    simp at hev
  | cons sh rest ih =>
    intro st tr st' h
    rcases h1 : processShard ops svc s sh st with ⟨tr1, r1⟩
    cases r1 with
    | ret e1 =>
      have hx : processShards ops svc s (sh :: rest) st = (tr1, .ret e1) := by
        simp only [processShards, h1]
      rw [h] at hx
      exact absurd (Prod.mk.inj hx).2 (by simp)
    | ok st1 =>
      rcases h2 : processShards ops svc s rest st1 with ⟨tr2, r2⟩
      have hx : processShards ops svc s (sh :: rest) st = (tr1 ++ tr2, r2) := by
        simp only [processShards, h1, h2]
      rw [h] at hx
      obtain ⟨htr, hres⟩ := Prod.mk.inj hx
      subst hres
      subst htr
      exact allOk_append (processShard_ok_allOk h1) (ih st1 tr2 st' h2)

theorem processShards_ret_aborts {σ : Type} (ops : Store σ) (svc : Kinesis)
    (s : Stream) :
    ∀ (shards : List Shard) (st : TickState σ) (tr : List Event)
      (e : Option String),
    processShards ops svc s shards st = (tr, .ret e) → Aborts tr e := by
  intro shards
  induction shards with
  | nil =>
    intro st tr e h
    simp only [processShards] at h
    obtain ⟨_, hres⟩ := Prod.mk.inj h
    exact absurd hres (by simp)
  | cons sh rest ih =>
    intro st tr e h
    rcases h1 : processShard ops svc s sh st with ⟨tr1, r1⟩
    cases r1 with
    | ret e1 =>
      have hx : processShards ops svc s (sh :: rest) st = (tr1, .ret e1) := by
        simp only [processShards, h1]
      rw [h] at hx
      obtain ⟨htr, hres⟩ := Prod.mk.inj hx
      subst htr
      rw [← StepRes.ret.inj hres] at h1
      exact processShard_ret_aborts h1
    | ok st1 =>
      rcases h2 : processShards ops svc s rest st1 with ⟨tr2, r2⟩
      have hx : processShards ops svc s (sh :: rest) st = (tr1 ++ tr2, r2) := by
        simp only [processShards, h1, h2]
      rw [h] at hx
      obtain ⟨htr, hres⟩ := Prod.mk.inj hx
      subst hres
      subst htr
      exact aborts_append (processShard_ok_allOk h1) (ih st1 tr2 e h2)

theorem seedShard_ok_allOk {σ : Type} {ops : Store σ} {svc : Kinesis}
    {s : Stream} {sh : Shard} {σ0 : σ} {tr : List Event} {σ1 : σ}
    (h : seedShard ops svc s sh σ0 = (tr, .ok σ1)) : AllOk tr := by
  unfold seedShard at h
  cases hr : svc.GetShardIterator sh.ID s.config.IteratorType s.Name with
  | error e => simp [hr] at h
  | ok resp =>
    simp only [hr] at h
    cases hu : (ops.UpdateShardIterator σ0 s.Name sh.ID
        (StringValue resp.ShardIterator)).2 with
    | some e => simp [hu] at h
    | none =>
      simp only [hu] at h
      obtain ⟨htr, _⟩ := Prod.mk.inj h
      subst htr
      intro ev hev
      simp only [List.mem_cons, List.not_mem_nil, or_false] at hev
      rcases hev with rfl | rfl
      · simp [Event.isOk]
      · simp [Event.isOk, hu]

theorem seedShard_ret_aborts {σ : Type} {ops : Store σ} {svc : Kinesis}
    {s : Stream} {sh : Shard} {σ0 : σ} {tr : List Event} {e : Option String}
    (h : seedShard ops svc s sh σ0 = (tr, .ret e)) : Aborts tr e := by
  unfold seedShard at h
  cases hr : svc.GetShardIterator sh.ID s.config.IteratorType s.Name with
  | error e0 =>
    simp only [hr] at h
    obtain ⟨htr, hres⟩ := Prod.mk.inj h
    subst htr
    refine ⟨e0, (StepRes.ret.inj hres).symm, ?_, ?_⟩
    · intro ev hev; simp at hev
    · exact ⟨_, rfl, by simp [Event.errOf]⟩
  | ok resp =>
    simp only [hr] at h
    cases hu : (ops.UpdateShardIterator σ0 s.Name sh.ID
        (StringValue resp.ShardIterator)).2 with
    | some e0 =>
      simp only [hu] at h
      obtain ⟨htr, hres⟩ := Prod.mk.inj h
      subst htr
      refine ⟨e0, (StepRes.ret.inj hres).symm, ?_, ?_⟩
      · intro ev hev
        simp only [List.dropLast, List.mem_cons, List.not_mem_nil,
          or_false] at hev
        subst hev
        simp [Event.isOk]
      · exact ⟨_, rfl, by simp [Event.errOf, hu]⟩
    | none => simp [hu] at h

theorem seedShards_ok_allOk {σ : Type} (ops : Store σ) (svc : Kinesis)
    (s : Stream) :
    ∀ (shards : List Shard) (σ0 : σ) (tr : List Event) (σ1 : σ),
    seedShards ops svc s shards σ0 = (tr, .ok σ1) → AllOk tr := by
  intro shards
  induction shards with
  | nil =>
    intro σ0 tr σ1 h
    simp only [seedShards] at h
    obtain ⟨htr, _⟩ := Prod.mk.inj h
    subst htr
    intro ev hev
    simp at hev
  | cons sh rest ih =>
    intro σ0 tr σ1 h
    rcases h1 : seedShard ops svc s sh σ0 with ⟨tr1, r1⟩
    cases r1 with
    | ret e1 =>
      have hx : seedShards ops svc s (sh :: rest) σ0 = (tr1, .ret e1) := by
        simp only [seedShards, h1]
      rw [h] at hx
      exact absurd (Prod.mk.inj hx).2 (by simp)
    | ok σmid =>
      rcases h2 : seedShards ops svc s rest σmid with ⟨tr2, r2⟩
      have hx : seedShards ops svc s (sh :: rest) σ0 = (tr1 ++ tr2, r2) := by
        simp only [seedShards, h1, h2]
      rw [h] at hx
      obtain ⟨htr, hres⟩ := Prod.mk.inj hx
      subst hres
      subst htr
      exact allOk_append (seedShard_ok_allOk h1) (ih σmid tr2 σ1 h2)

theorem seedShards_ret_aborts {σ : Type} (ops : Store σ) (svc : Kinesis)
    (s : Stream) :
    ∀ (shards : List Shard) (σ0 : σ) (tr : List Event) (e : Option String),
    seedShards ops svc s shards σ0 = (tr, .ret e) → Aborts tr e := by
  intro shards
  induction shards with
  | nil =>
    intro σ0 tr e h
    simp only [seedShards] at h
    obtain ⟨_, hres⟩ := Prod.mk.inj h
    exact absurd hres (by simp)
  | cons sh rest ih =>
    intro σ0 tr e h
    rcases h1 : seedShard ops svc s sh σ0 with ⟨tr1, r1⟩
    cases r1 with
    | ret e1 =>
      have hx : seedShards ops svc s (sh :: rest) σ0 = (tr1, .ret e1) := by
        simp only [seedShards, h1]
      rw [h] at hx
      obtain ⟨htr, hres⟩ := Prod.mk.inj hx
      subst htr
      rw [← StepRes.ret.inj hres] at h1
      exact seedShard_ret_aborts h1
    | ok σmid =>
      rcases h2 : seedShards ops svc s rest σmid with ⟨tr2, r2⟩
      have hx : seedShards ops svc s (sh :: rest) σ0 = (tr1 ++ tr2, r2) := by
        simp only [seedShards, h1, h2]
      rw [h] at hx
      obtain ⟨htr, hres⟩ := Prod.mk.inj hx
      subst hres
      subst htr
      exact aborts_append (seedShard_ok_allOk h1) (ih σmid tr2 e h2)

theorem iterateTicks_ok_allOk {σ : Type} (ops : Store σ) (svc : Kinesis)
    (s : Stream) :
    ∀ (n : Nat) (st : TickState σ) (tr : List Event) (st' : TickState σ),
    iterateTicks ops svc s n st = (tr, .ok st') → AllOk tr := by
  intro n
  induction n with
  | zero =>
    intro st tr st' h
    simp only [iterateTicks] at h
    obtain ⟨htr, _⟩ := Prod.mk.inj h
    subst htr
    intro ev hev
    simp at hev
  | succ n ih =>
    intro st tr st' h
    rcases h1 : tick ops svc s st with ⟨tr1, r1⟩
    cases r1 with
    | ret e1 =>
      have hx : iterateTicks ops svc s (n + 1) st = (tr1, .ret e1) := by
        simp only [iterateTicks, h1]
      rw [h] at hx
      exact absurd (Prod.mk.inj hx).2 (by simp)
    | ok st1 =>
      rcases h2 : iterateTicks ops svc s n st1 with ⟨tr2, r2⟩
      have hx : iterateTicks ops svc s (n + 1) st = (tr1 ++ tr2, r2) := by
        simp only [iterateTicks, h1, h2]
      rw [h] at hx
      obtain ⟨htr, hres⟩ := Prod.mk.inj hx
      subst hres
      subst htr
      exact allOk_append
        (processShards_ok_allOk ops svc s s.Shards st tr1 st1 h1)
        (ih st1 tr2 st' h2)

theorem iterateTicks_ret_aborts {σ : Type} (ops : Store σ) (svc : Kinesis)
    (s : Stream) :
    ∀ (n : Nat) (st : TickState σ) (tr : List Event) (e : Option String),
    iterateTicks ops svc s n st = (tr, .ret e) → Aborts tr e := by
  intro n
  induction n with
  | zero =>
    intro st tr e h
    simp only [iterateTicks] at h
    obtain ⟨_, hres⟩ := Prod.mk.inj h
    exact absurd hres (by simp)
  | succ n ih =>
    intro st tr e h
    rcases h1 : tick ops svc s st with ⟨tr1, r1⟩
    cases r1 with
    | ret e1 =>
      have hx : iterateTicks ops svc s (n + 1) st = (tr1, .ret e1) := by
        simp only [iterateTicks, h1]
      rw [h] at hx
      obtain ⟨htr, hres⟩ := Prod.mk.inj hx
      subst htr
      rw [← StepRes.ret.inj hres] at h1
      exact processShards_ret_aborts ops svc s s.Shards st _ e h1
    | ok st1 =>
      rcases h2 : iterateTicks ops svc s n st1 with ⟨tr2, r2⟩
      have hx : iterateTicks ops svc s (n + 1) st = (tr1 ++ tr2, r2) := by
        simp only [iterateTicks, h1, h2]
      rw [h] at hx
      obtain ⟨htr, hres⟩ := Prod.mk.inj hx
      subst hres
      subst htr
      exact aborts_append
        (processShards_ok_allOk ops svc s s.Shards st tr1 st1 h1)
        (ih st1 tr2 e h2)

theorem listenN_ret_aborts {σ : Type} {ops : Store σ} {svc : Kinesis}
    {s : Stream} {σ0 : σ} {n : Nat} {tr : List Event} {e : Option String}
    (h : listenN ops svc s σ0 n = (tr, .ret e)) : Aborts tr e := by
  rcases h0 : setInitialIterators ops svc s σ0 with ⟨tr0, r0⟩
  cases r0 with
  | ret e0 =>
    have hx : listenN ops svc s σ0 n = (tr0, .ret e0) := by
      simp only [listenN, h0]
    rw [h] at hx
    obtain ⟨htr, hres⟩ := Prod.mk.inj hx
    subst htr
    rw [← StepRes.ret.inj hres] at h0
    exact seedShards_ret_aborts ops svc s s.Shards σ0 tr e h0
  | ok σ1 =>
    rcases h1 : iterateTicks ops svc s n ⟨σ1, 0⟩ with ⟨tr1, r1⟩
    have hx : listenN ops svc s σ0 n = (tr0 ++ tr1, r1) := by
      simp only [listenN, h0, h1]
    rw [h] at hx
    obtain ⟨htr, hres⟩ := Prod.mk.inj hx
    subst hres
    subst htr
    exact aborts_append (seedShards_ok_allOk ops svc s s.Shards σ0 tr0 σ1 h0)
      (iterateTicks_ret_aborts ops svc s n ⟨σ1, 0⟩ tr1 e h1)

theorem processShard_nofail {σ : Type} (ops : Store σ) (svc : Kinesis)
    (s : Stream)
    (hget : ∀ σ' a b, (ops.GetShardIterator σ' a b).2 = none)
    (hupd : ∀ σ' a b v, (ops.UpdateShardIterator σ' a b v).2 = none)
    (hfetch : ∀ i lim it, ∃ r, svc.GetRecords i lim it = Except.ok r)
    (sh : Shard) (st : TickState σ) :
    ∃ tr st', processShard ops svc s sh st = (tr, .ok st') := by
  rcases hx : processShard ops svc s sh st with ⟨tr, r⟩
  cases r with
  | ok st' => exact ⟨tr, st', rfl⟩
  | ret e =>
    obtain ⟨r0, hr⟩ := hfetch st.fetchCount s.config.Limit
      (ops.GetShardIterator st.store s.Name sh.ID).1
    simp only [processShard, hget, hr, hupd] at hx
    exact absurd (Prod.mk.inj hx).2 (by simp)

theorem seedShard_nofail {σ : Type} (ops : Store σ) (svc : Kinesis)
    (s : Stream)
    (hupd : ∀ σ' a b v, (ops.UpdateShardIterator σ' a b v).2 = none)
    (hseed : ∀ a ty nm, ∃ o, svc.GetShardIterator a ty nm = Except.ok o)
    (sh : Shard) (σ0 : σ) :
    ∃ tr σ1, seedShard ops svc s sh σ0 = (tr, .ok σ1) := by
  rcases hx : seedShard ops svc s sh σ0 with ⟨tr, r⟩
  cases r with
  | ok σ1 => exact ⟨tr, σ1, rfl⟩
  | ret e =>
    obtain ⟨o, ho⟩ := hseed sh.ID s.config.IteratorType s.Name
    simp only [seedShard, ho, hupd] at hx
    exact absurd (Prod.mk.inj hx).2 (by simp)

theorem processShards_nofail {σ : Type} (ops : Store σ) (svc : Kinesis)
    (s : Stream)
    (hget : ∀ σ' a b, (ops.GetShardIterator σ' a b).2 = none)
    (hupd : ∀ σ' a b v, (ops.UpdateShardIterator σ' a b v).2 = none)
    (hfetch : ∀ i lim it, ∃ r, svc.GetRecords i lim it = Except.ok r) :
    ∀ (shards : List Shard) (st : TickState σ),
    ∃ tr st', processShards ops svc s shards st = (tr, .ok st') := by
  intro shards
  induction shards with
  | nil => intro st; exact ⟨[], st, rfl⟩
  | cons sh rest ih =>
    intro st
    obtain ⟨tr1, st1, h1⟩ := processShard_nofail ops svc s hget hupd hfetch sh st
    obtain ⟨tr2, st2, h2⟩ := ih st1
    refine ⟨tr1 ++ tr2, st2, ?_⟩
    simp only [processShards, h1, h2]

theorem seedShards_nofail {σ : Type} (ops : Store σ) (svc : Kinesis)
    (s : Stream)
    (hupd : ∀ σ' a b v, (ops.UpdateShardIterator σ' a b v).2 = none)
    (hseed : ∀ a ty nm, ∃ o, svc.GetShardIterator a ty nm = Except.ok o) :
    ∀ (shards : List Shard) (σ0 : σ),
    ∃ tr σ1, seedShards ops svc s shards σ0 = (tr, .ok σ1) := by
  intro shards
  induction shards with
  | nil => intro σ0; exact ⟨[], σ0, rfl⟩
  | cons sh rest ih =>
    intro σ0
    obtain ⟨tr1, σmid, h1⟩ := seedShard_nofail ops svc s hupd hseed sh σ0
    obtain ⟨tr2, σ1, h2⟩ := ih σmid
    refine ⟨tr1 ++ tr2, σ1, ?_⟩
    simp only [seedShards, h1, h2]

theorem iterateTicks_nofail {σ : Type} (ops : Store σ) (svc : Kinesis)
    (s : Stream)
    (hget : ∀ σ' a b, (ops.GetShardIterator σ' a b).2 = none)
    (hupd : ∀ σ' a b v, (ops.UpdateShardIterator σ' a b v).2 = none)
    (hfetch : ∀ i lim it, ∃ r, svc.GetRecords i lim it = Except.ok r) :
    ∀ (n : Nat) (st : TickState σ),
    ∃ tr st', iterateTicks ops svc s n st = (tr, .ok st') := by
  intro n
  induction n with
  | zero => intro st; exact ⟨[], st, rfl⟩
  | succ n ih =>
    intro st
    obtain ⟨tr1, st1, h1⟩ :=
      processShards_nofail ops svc s hget hupd hfetch s.Shards st
    obtain ⟨tr2, st2, h2⟩ := ih st1
    refine ⟨tr1 ++ tr2, st2, ?_⟩
    simp only [iterateTicks, tick, h1, h2]

/-- C10: whenever the listen loop returns, the returned Go error is non-nil
and is exactly the error of the first failing operation (all earlier
seeding, store-read, fetch and store-update operations in the trace
succeeded, and the last trace event carries that error); and when the
service and the store never fail, the loop is still running after any
number of ticks. -/
theorem listen_returns_only_first_error {σ : Type} (ops : Store σ)
    (svc : Kinesis) (s : Stream) (σ0 : σ) (n : Nat) (tr : List Event)
    (res : StepRes (TickState σ))
    (hrun : listenN ops svc s σ0 n = (tr, res)) :
    (∀ e, res = .ret e → ∃ msg, e = some msg ∧
      (∀ ev ∈ tr.dropLast, ev.isOk = true) ∧
      ∃ last, tr.getLast? = some last ∧ last.errOf = some msg) ∧
    ((∀ a ty nm, ∃ o, svc.GetShardIterator a ty nm = Except.ok o) →
     (∀ i lim it, ∃ r, svc.GetRecords i lim it = Except.ok r) →
     (∀ σ' a b, (ops.GetShardIterator σ' a b).2 = none) →
     (∀ σ' a b v, (ops.UpdateShardIterator σ' a b v).2 = none) →
     ∃ st', res = .ok st') := by
  constructor
  · intro e hres
    subst hres
    exact listenN_ret_aborts hrun
  · intro hseed hfetch hget hupd
    obtain ⟨tr0, σ1, h0⟩ := seedShards_nofail ops svc s hupd hseed s.Shards σ0
    obtain ⟨tr1, st', h1⟩ :=
      iterateTicks_nofail ops svc s hget hupd hfetch n ⟨σ1, 0⟩
    have hx : listenN ops svc s σ0 n = (tr0 ++ tr1, .ok st') := by
      simp only [listenN, setInitialIterators, h0, h1]
    rw [hrun] at hx
    exact ⟨st', (Prod.mk.inj hx).2⟩

/-- C10 witness: the first-error theorem at a failing run and at a
failure-free run. -/
theorem listen_returns_only_first_error_witness :
    (∃ msg, (some "boom" : Option String) = some msg ∧
      (∀ ev ∈ trFF.dropLast, ev.isOk = true) ∧
      ∃ last, trFF.getLast? = some last ∧ last.errOf = some msg) ∧
    (∃ st', (StepRes.ok stOkW : StepRes (TickState LocalStore)) = .ok st') := by
  constructor
  · exact (listen_returns_only_first_error LocalStore.store svcFetchFail sOne
      NewLocalStore 1 trFF (.ret (some "boom")) rfl).1 (some "boom") rfl
  · exact (listen_returns_only_first_error LocalStore.store svcAllOk sOne
      NewLocalStore 1 trOkW (.ok stOkW) rfl).2
      (fun _ _ _ => ⟨⟨some "it0"⟩, rfl⟩) (fun _ _ _ => ⟨⟨[], some "n"⟩, rfl⟩)
      (fun _ _ _ => rfl) (fun _ _ _ _ => rfl)

theorem processShard_fetch_error {σ : Type} {ops : Store σ} {svc : Kinesis}
    {s : Stream} {sh : Shard} {st : TickState σ} {tr : List Event}
    {res : StepRes (TickState σ)} {j : Nat} {shId it msg : String}
    (h : processShard ops svc s sh st = (tr, res))
    (hj : tr[j]? = some (.fetch shId it (Except.error msg))) :
    res = .ret (some msg) ∧ j + 1 = tr.length ∧ shId = sh.ID ∧
    ∀ tok uerr, Event.storeSet shId tok uerr ∉ tr := by
  unfold processShard at h
  cases hg : (ops.GetShardIterator st.store s.Name sh.ID).2 with
  | some e0 =>
    simp only [hg] at h
    obtain ⟨htr, hres⟩ := Prod.mk.inj h
    subst htr
    rcases j with _ | j <;> simp at hj
  | none =>
    simp only [hg] at h
    cases hr : svc.GetRecords st.fetchCount s.config.Limit
        (ops.GetShardIterator st.store s.Name sh.ID).1 with
    | error e0 =>
      simp only [hr] at h
      obtain ⟨htr, hres⟩ := Prod.mk.inj h
      subst htr
      rcases j with _ | _ | j
      · simp at hj
      · simp only [List.getElem?_cons_succ, List.getElem?_cons_zero,
          Option.some.injEq] at hj
        obtain ⟨hid, hit, herr⟩ := Event.fetch.inj hj
        refine ⟨?_, rfl, hid.symm, ?_⟩
        · rw [← hres, Except.error.inj herr]
        · intro tok uerr hmem
          simp at hmem
      · simp at hj
    | ok resp =>
      simp only [hr] at h
      cases hu : (ops.UpdateShardIterator st.store s.Name sh.ID
          (StringValue resp.NextShardIterator)).2 with
      | some e0 =>
        simp only [hu] at h
        obtain ⟨htr, hres⟩ := Prod.mk.inj h
        subst htr
        rcases j with _ | _ | _ | _ | j <;> simp at hj
      | none =>
        simp only [hu] at h
        obtain ⟨htr, hres⟩ := Prod.mk.inj h
        subst htr
        rcases j with _ | _ | _ | _ | j <;> simp at hj

theorem processShard_ok_trace {σ : Type} {ops : Store σ} {svc : Kinesis}
    {s : Stream} {sh : Shard} {st : TickState σ} {tr : List Event}
    {st' : TickState σ}
    (h : processShard ops svc s sh st = (tr, .ok st')) :
    (∀ a it' msg, Event.fetch a it' (Except.error msg) ∉ tr) ∧
    (∀ a tok uerr, Event.storeSet a tok uerr ∈ tr → a = sh.ID) := by
  unfold processShard at h
  cases hg : (ops.GetShardIterator st.store s.Name sh.ID).2 with
  | some e0 => simp [hg] at h
  | none =>
    simp only [hg] at h
    cases hr : svc.GetRecords st.fetchCount s.config.Limit
        (ops.GetShardIterator st.store s.Name sh.ID).1 with
    | error e0 => simp [hr] at h
    | ok resp =>
      simp only [hr] at h
      cases hu : (ops.UpdateShardIterator st.store s.Name sh.ID
          (StringValue resp.NextShardIterator)).2 with
      | some e0 => simp [hu] at h
      | none =>
        simp only [hu] at h
        obtain ⟨htr, _⟩ := Prod.mk.inj h
        subst htr
        constructor
        · intro a it' msg hmem
          simp at hmem
        · intro a tok uerr hmem
          simp only [List.mem_cons, List.not_mem_nil, or_false] at hmem
          rcases hmem with hmem | hmem | hmem | hmem
          · exact absurd hmem (by simp)
          · exact absurd hmem (by simp)
          · exact absurd hmem (by simp)
          · exact (Event.storeSet.inj hmem).1

theorem processShards_fetch_error {σ : Type} (ops : Store σ) (svc : Kinesis)
    (s : Stream) :
    ∀ (shards : List Shard) (st : TickState σ) (tr : List Event)
      (res : StepRes (TickState σ)) (j : Nat) (shId it msg : String),
    processShards ops svc s shards st = (tr, res) →
    tr[j]? = some (.fetch shId it (Except.error msg)) →
    (shards.map Shard.ID).Nodup →
    res = .ret (some msg) ∧ j + 1 = tr.length ∧
    shId ∈ shards.map Shard.ID ∧
    ∀ tok uerr, Event.storeSet shId tok uerr ∉ tr := by
  intro shards
  induction shards with
  | nil =>
    intro st tr res j shId it msg h hj _
    simp only [processShards] at h
    obtain ⟨htr, _⟩ := Prod.mk.inj h
    rw [← htr] at hj
    simp at hj
  | cons sh rest ih =>
    intro st tr res j shId it msg h hj hnd
    rw [List.map_cons, List.nodup_cons] at hnd
    obtain ⟨hnotin, hnd2⟩ := hnd
    rcases h1 : processShard ops svc s sh st with ⟨tr1, r1⟩
    cases r1 with
    | ret e1 =>
      have hx : processShards ops svc s (sh :: rest) st = (tr1, .ret e1) := by
        simp only [processShards, h1]
      rw [h] at hx
      obtain ⟨htr, hres⟩ := Prod.mk.inj hx
      subst htr
      obtain ⟨hres1, hlen, hid, hnomem⟩ := processShard_fetch_error h1 hj
      refine ⟨hres.trans hres1, hlen, ?_, hnomem⟩
      rw [List.map_cons, hid]
      exact List.mem_cons_self _ _
    | ok st1 =>
      rcases h2 : processShards ops svc s rest st1 with ⟨tr2, r2⟩
      have hx : processShards ops svc s (sh :: rest) st = (tr1 ++ tr2, r2) := by
        simp only [processShards, h1, h2]
      rw [h] at hx
      obtain ⟨htr, hres⟩ := Prod.mk.inj hx
      subst hres
      subst htr
      obtain ⟨hnofe, hsetid⟩ := processShard_ok_trace h1
      by_cases hlt : j < tr1.length
      · exfalso
        rw [List.getElem?_append, if_pos hlt] at hj
        exact hnofe shId it msg (List.getElem?_mem hj)
      · push_neg at hlt
        rw [List.getElem?_append, if_neg (by omega)] at hj
        obtain ⟨hres2, hlen2, hmem2, hnomem2⟩ :=
          ih st1 tr2 _ (j - tr1.length) shId it msg h2 hj hnd2
        refine ⟨hres2, ?_, ?_, ?_⟩
        · rw [List.length_append]
          omega
        · rw [List.map_cons]
          exact List.mem_cons_of_mem _ hmem2
        · intro tok uerr hmem
          rcases List.mem_append.mp hmem with hmem | hmem
          · exact hnotin (hsetid shId tok uerr hmem ▸ hmem2)
          · exact hnomem2 tok uerr hmem

/-- C3: if the fetch for a shard fails during a tick, that tick returns the
fetch error immediately: the failing fetch is the last event of the tick
(no later shard is read or fetched), no position update is written for
the failing shard in that tick, and the listen loop returns exactly that
fetch error. -/
theorem fetch_failure_aborts_tick {σ : Type} (ops : Store σ) (svc : Kinesis)
    (s : Stream) (st : TickState σ) (tr : List Event)
    (res : StepRes (TickState σ)) (j : Nat) (shId it msg : String)
    (htick : tick ops svc s st = (tr, res))
    (hj : tr[j]? = some (.fetch shId it (Except.error msg)))
    (hnd : (s.Shards.map Shard.ID).Nodup) :
    res = .ret (some msg) ∧ j + 1 = tr.length ∧
    (∀ tok uerr, Event.storeSet shId tok uerr ∉ tr) ∧
    (∀ m, iterateTicks ops svc s (m + 1) st = (tr, .ret (some msg))) := by
  obtain ⟨hres, hlen, _, hnomem⟩ := processShards_fetch_error ops svc s
    s.Shards st tr res j shId it msg htick hj hnd
  refine ⟨hres, hlen, hnomem, ?_⟩
  intro m
  rw [hres] at htick
  simp only [iterateTicks, htick]

/-- C3 witness: the fetch-failure theorem at a concrete two-shard input. -/
theorem fetch_failure_aborts_tick_witness :
    (StepRes.ret (some "boom") : StepRes (TickState LocalStore)) =
      .ret (some "boom") ∧
    1 + 1 = trC3.length ∧
    (∀ tok uerr, Event.storeSet "a" tok uerr ∉ trC3) ∧
    (∀ m, iterateTicks LocalStore.store svcFetchFail sTwo (m + 1) stC3 =
      (trC3, .ret (some "boom"))) :=
  fetch_failure_aborts_tick LocalStore.store svcFetchFail sTwo stC3 trC3
    (.ret (some "boom")) 1 "a" "ita" "boom" rfl rfl (by decide)

theorem localStore_store_get (σ0 : LocalStore) (a b : String) :
    Store.GetShardIterator LocalStore.store σ0 a b =
      (mapGet σ0.m (localKey a b), none) := rfl

theorem localStore_store_update (σ0 : LocalStore) (a b v : String) :
    Store.UpdateShardIterator LocalStore.store σ0 a b v =
      (⟨mapSet σ0.m (localKey a b) v⟩, none) := rfl

theorem seedShards_ok_store (svc : Kinesis) (s : Stream) :
    ∀ (shards : List Shard) (σ0 : LocalStore) (tr : List Event)
      (σ1 : LocalStore),
    seedShards LocalStore.store svc s shards σ0 = (tr, .ok σ1) →
    σ1 = applyUpdates σ0
      (shards.map fun x => (s.Name, x.ID, seedTok svc s x.ID)) ∧
    ∀ x ∈ shards,
      ∃ o, svc.GetShardIterator x.ID s.config.IteratorType s.Name =
        Except.ok o := by
  intro shards
  induction shards with
  | nil =>
    intro σ0 tr σ1 h
    simp only [seedShards] at h
    refine ⟨?_, by intro x hx; simp at hx⟩
    rw [List.map_nil]
    exact (StepRes.ok.inj (Prod.mk.inj h).2).symm
  | cons sh rest ih =>
    intro σ0 tr σ1 h
    cases ho : svc.GetShardIterator sh.ID s.config.IteratorType s.Name with
    | error e =>
      have hx : seedShards LocalStore.store svc s (sh :: rest) σ0 =
          ([.seedIter sh.ID (.error e)], .ret (some e)) := by
        simp only [seedShards, seedShard, ho]
      rw [h] at hx
      exact absurd (Prod.mk.inj hx).2 (by simp)
    | ok o =>
      rcases h2 : seedShards LocalStore.store svc s rest
          ⟨mapSet σ0.m (localKey s.Name sh.ID)
            (StringValue o.ShardIterator)⟩ with ⟨tr2, r2⟩
      have hx : seedShards LocalStore.store svc s (sh :: rest) σ0 =
          ([.seedIter sh.ID (.ok o),
            .seedStore sh.ID (StringValue o.ShardIterator) none] ++ tr2,
           r2) := by
        simp only [seedShards, seedShard, ho, localStore_store_update, h2]
      rw [h] at hx
      obtain ⟨htr, hres⟩ := Prod.mk.inj hx
      subst hres
      obtain ⟨hst, hok⟩ := ih _ tr2 σ1 h2
      constructor
      · rw [List.map_cons]
        have hseedtok : seedTok svc s sh.ID = StringValue o.ShardIterator := by
          simp [seedTok, ho]
        simp only [applyUpdates, hseedtok, LocalStore.UpdateShardIterator]
        exact hst
      · intro x hx2
        rcases List.mem_cons.mp hx2 with rfl | hx2
        · exact ⟨o, ho⟩
        · exact hok x hx2

theorem lastWriteForKey_seed_val (svc : Kinesis) (s : Stream) (i : String) :
    ∀ (shards : List Shard) (w : String),
    lastWriteForKey (localKey s.Name i)
      (shards.map fun x => (s.Name, x.ID, seedTok svc s x.ID)) = some w →
    w = seedTok svc s i := by
  intro shards
  induction shards with
  | nil => intro w h; simp [lastWriteForKey] at h
  | cons sh rest ih =>
    intro w h
    simp only [List.map_cons, lastWriteForKey] at h
    cases hlw : lastWriteForKey (localKey s.Name i)
        (rest.map fun x => (s.Name, x.ID, seedTok svc s x.ID)) with
    | some w' =>
      rw [hlw] at h
      have hww : w' = w := Option.some.inj h
      rw [← hww]
      exact ih w' hlw
    | none =>
      rw [hlw] at h
      by_cases hk : localKey s.Name sh.ID = localKey s.Name i
      · rw [if_pos hk] at h
        have hval : w = seedTok svc s sh.ID := (Option.some.inj h).symm
        rw [hval, localKey_inj hk]
      · rw [if_neg hk] at h
        exact absurd h (by simp)

theorem lastWriteForKey_seed (svc : Kinesis) (s : Stream) :
    ∀ (shards : List Shard) (sh : Shard), sh ∈ shards →
    lastWriteForKey (localKey s.Name sh.ID)
      (shards.map fun x => (s.Name, x.ID, seedTok svc s x.ID)) =
      some (seedTok svc s sh.ID) := by
  intro shards
  induction shards with
  | nil => intro sh h; simp at h
  | cons x rest ih =>
    intro sh hsh
    simp only [List.map_cons, lastWriteForKey]
    cases hlw : lastWriteForKey (localKey s.Name sh.ID)
        (rest.map fun y => (s.Name, y.ID, seedTok svc s y.ID)) with
    | some w =>
      rw [lastWriteForKey_seed_val svc s sh.ID rest w hlw]
    | none =>
      rcases List.mem_cons.mp hsh with rfl | hsh2
      · rw [if_pos rfl]
      · rw [ih sh hsh2] at hlw
        exact absurd hlw (by simp)

theorem countKey_applyUpdates :
    ∀ (ops : List (String × String × String)) (σ0 : LocalStore) (k : String),
    (∀ k', countKey σ0.m k' ≤ 1) →
    countKey (applyUpdates σ0 ops).m k =
      if (lastWriteForKey k ops).isSome then 1 else countKey σ0.m k := by
  intro ops
  induction ops with
  | nil => intro σ0 k hall; simp [applyUpdates, lastWriteForKey]
  | cons hd tl ih =>
    obtain ⟨s1, h1, v1⟩ := hd
    intro σ0 k hall
    simp only [applyUpdates, LocalStore.UpdateShardIterator, lastWriteForKey]
    have hall' : ∀ k',
        countKey (mapSet σ0.m (localKey s1 h1) v1) k' ≤ 1 :=
      fun k' => countKey_mapSet_le _ _ _ _ (hall k') (hall (localKey s1 h1))
    rw [ih ⟨mapSet σ0.m (localKey s1 h1) v1⟩ k hall']
    by_cases hs : (lastWriteForKey k tl).isSome
    · obtain ⟨w, hw⟩ := Option.isSome_iff_exists.mp hs
      simp only [hw]
      simp
    · have hnone := Option.not_isSome_iff_eq_none.mp hs
      simp only [hnone]
      by_cases hk : localKey s1 h1 = k
      · subst hk
        simp [countKey_mapSet_self _ _ v1 (hall (localKey s1 h1))]
      · simp [hk, countKey_mapSet_other σ0.m (localKey s1 h1) v1 k
          (fun hh => hk hh.symm)]

/-- C2: if seeding completes without error on a fresh empty store, then for
every shard of the directory the seeding service call succeeded, the
store holds exactly one entry for (stream, shard), and that entry's value
is the iterator token the call returned. -/
theorem setInitialIterators_seeds_each_shard (svc : Kinesis) (s : Stream)
    (tr : List Event) (σ1 : LocalStore)
    (hseed : setInitialIterators LocalStore.store svc s NewLocalStore =
      (tr, .ok σ1))
    (sh : Shard) (hsh : sh ∈ s.Shards) :
    ∃ o, svc.GetShardIterator sh.ID s.config.IteratorType s.Name =
        Except.ok o ∧
      countKey σ1.m (localKey s.Name sh.ID) = 1 ∧
      mapGet σ1.m (localKey s.Name sh.ID) = StringValue o.ShardIterator := by
  obtain ⟨hst, hok⟩ :=
    seedShards_ok_store svc s s.Shards NewLocalStore tr σ1 hseed
  obtain ⟨o, ho⟩ := hok sh hsh
  refine ⟨o, ho, ?_, ?_⟩
  · rw [hst,
      countKey_applyUpdates
        (s.Shards.map fun x => (s.Name, x.ID, seedTok svc s x.ID))
        NewLocalStore (localKey s.Name sh.ID)
        (fun k' => by simp [NewLocalStore, countKey]),
      lastWriteForKey_seed svc s s.Shards sh hsh]
    simp
  · rw [hst, applyUpdates_mapGet, lastWriteForKey_seed svc s s.Shards sh hsh]
    simp [seedTok, ho]

/-- C2 witness: the seeding theorem at a concrete two-shard input. -/
theorem setInitialIterators_seeds_each_shard_witness :
    ∃ o, svcSeedW.GetShardIterator "a" sTwo.config.IteratorType sTwo.Name =
        Except.ok o ∧
      countKey σSeedW.m (localKey sTwo.Name "a") = 1 ∧
      mapGet σSeedW.m (localKey sTwo.Name "a") = StringValue o.ShardIterator :=
  setInitialIterators_seeds_each_shard svcSeedW sTwo trSeedW σSeedW rfl
    ⟨"a", "0"⟩ (by decide)

theorem fetchEvents_append (tr1 tr2 : List Event) :
    fetchEvents (tr1 ++ tr2) = fetchEvents tr1 ++ fetchEvents tr2 := by
  induction tr1 with
  | nil => rfl
  | cons hd tl ih => cases hd <;> simp [fetchEvents, ih]

/-- Evaluation of the per-shard loop body against the reference store. -/
theorem processShard_local (svc : Kinesis) (s : Stream) (sh : Shard)
    (st : TickState LocalStore) :
    processShard LocalStore.store svc s sh st =
      match svc.GetRecords st.fetchCount s.config.Limit
          (mapGet st.store.m (localKey s.Name sh.ID)) with
      | .error e =>
        ([.storeGet sh.ID (mapGet st.store.m (localKey s.Name sh.ID), none),
          .fetch sh.ID (mapGet st.store.m (localKey s.Name sh.ID))
            (.error e)],
         .ret (some e))
      | .ok resp =>
        ([.storeGet sh.ID (mapGet st.store.m (localKey s.Name sh.ID), none),
          .fetch sh.ID (mapGet st.store.m (localKey s.Name sh.ID))
            (.ok resp),
          .dispatch resp.Records,
          .storeSet sh.ID (StringValue resp.NextShardIterator) none],
         .ok ⟨⟨mapSet st.store.m (localKey s.Name sh.ID)
            (StringValue resp.NextShardIterator)⟩, st.fetchCount + 1⟩) := by
  cases hr : svc.GetRecords st.fetchCount s.config.Limit
      (mapGet st.store.m (localKey s.Name sh.ID)) with
  | error e =>
    simp [processShard, localStore_store_get, localStore_store_update, hr]
  | ok resp =>
    simp [processShard, localStore_store_get, localStore_store_update, hr]

theorem iterateTicks_chain (svc : Kinesis) (s : Stream) (sh : Shard)
    (hs : s.Shards = [sh]) :
    ∀ (n : Nat) (st : TickState LocalStore) (tr : List Event)
      (res : StepRes (TickState LocalStore)),
    iterateTicks LocalStore.store svc s n st = (tr, res) →
    fetchChainFrom (mapGet st.store.m (localKey s.Name sh.ID))
      (fetchEvents tr) := by
  intro n
  induction n with
  | zero =>
    intro st tr res h
    simp only [iterateTicks] at h
    obtain ⟨htr, _⟩ := Prod.mk.inj h
    rw [← htr]
    simp [fetchEvents, fetchChainFrom]
  | succ n ih =>
    intro st tr res h
    have hblock := processShard_local svc s sh st
    cases hr : svc.GetRecords st.fetchCount s.config.Limit
        (mapGet st.store.m (localKey s.Name sh.ID)) with
    | error e =>
      simp only [hr] at hblock
      have htick : tick LocalStore.store svc s st =
          ([.storeGet sh.ID (mapGet st.store.m (localKey s.Name sh.ID), none),
            .fetch sh.ID (mapGet st.store.m (localKey s.Name sh.ID))
              (.error e)],
           .ret (some e)) := by
        simp only [tick, hs, processShards, hblock]
      have hx : iterateTicks LocalStore.store svc s (n + 1) st =
          ([.storeGet sh.ID (mapGet st.store.m (localKey s.Name sh.ID), none),
            .fetch sh.ID (mapGet st.store.m (localKey s.Name sh.ID))
              (.error e)],
           .ret (some e)) := by
        simp only [iterateTicks, htick]
      rw [h] at hx
      obtain ⟨htr, _⟩ := Prod.mk.inj hx
      subst htr
      simp [fetchEvents, fetchChainFrom]
    | ok resp =>
      simp only [hr] at hblock
      have htick : tick LocalStore.store svc s st =
          ([.storeGet sh.ID (mapGet st.store.m (localKey s.Name sh.ID), none),
            .fetch sh.ID (mapGet st.store.m (localKey s.Name sh.ID))
              (.ok resp),
            .dispatch resp.Records,
            .storeSet sh.ID (StringValue resp.NextShardIterator) none],
           .ok ⟨⟨mapSet st.store.m (localKey s.Name sh.ID)
              (StringValue resp.NextShardIterator)⟩, st.fetchCount + 1⟩) := by
        simp only [tick, hs, processShards, hblock, List.append_nil]
      rcases h2 : iterateTicks LocalStore.store svc s n
          ⟨⟨mapSet st.store.m (localKey s.Name sh.ID)
            (StringValue resp.NextShardIterator)⟩, st.fetchCount + 1⟩
        with ⟨tr2, res2⟩
      have hx : iterateTicks LocalStore.store svc s (n + 1) st =
          ([.storeGet sh.ID (mapGet st.store.m (localKey s.Name sh.ID), none),
            .fetch sh.ID (mapGet st.store.m (localKey s.Name sh.ID))
              (.ok resp),
            .dispatch resp.Records,
            .storeSet sh.ID (StringValue resp.NextShardIterator) none]
            ++ tr2, res2) := by
        simp only [iterateTicks, htick, h2]
      rw [h] at hx
      obtain ⟨htr, _⟩ := Prod.mk.inj hx
      subst htr
      have htail := ih _ tr2 res2 h2
      simp only [mapGet_mapSet, if_pos rfl] at htail
      simp only [fetchEvents_append, fetchEvents, fetchChainFrom]
      constructor
      · trivial
      · exact htail

theorem fetchChainFrom_consecutive :
    ∀ (fs : List (String × String × Except String GetRecordsOutput))
      (p : String) (j : Nat) (a it : String) (r : GetRecordsOutput)
      (a' it' : String) (r' : Except String GetRecordsOutput),
    fetchChainFrom p fs →
    fs[j]? = some (a, it, Except.ok r) →
    fs[j+1]? = some (a', it', r') →
    it' = StringValue r.NextShardIterator := by
  intro fs
  induction fs with
  | nil => intro p j a it r a' it' r' hc h1 h2; simp at h1
  | cons e rest ih =>
    intro p j a it r a' it' r' hc h1 h2
    obtain ⟨a0, it0, r0⟩ := e
    simp only [fetchChainFrom] at hc
    obtain ⟨hit0, htail⟩ := hc
    cases j with
    | zero =>
      simp only [List.getElem?_cons_zero, Option.some.injEq] at h1
      obtain ⟨ha0, hrest⟩ := Prod.mk.inj h1
      obtain ⟨hit, hr0⟩ := Prod.mk.inj hrest
      subst hr0
      cases rest with
      | nil => simp at h2
      | cons e2 rest2 =>
        obtain ⟨a2, it2, r2⟩ := e2
        simp only [List.getElem?_cons_succ, List.getElem?_cons_zero,
          Option.some.injEq] at h2
        obtain ⟨ha2, hrest2⟩ := Prod.mk.inj h2
        obtain ⟨hit2, hr2⟩ := Prod.mk.inj hrest2
        simp only [fetchChainFrom] at htail
        rw [← hit2]
        exact htail.1
    | succ j =>
      simp only [List.getElem?_cons_succ] at h1 h2
      cases r0 with
      | ok r0' => exact ih _ j a it r a' it' r' htail h1 h2
      | error e0 =>
        rw [htail] at h1
        simp at h1

theorem aligned_append {tr1 tr2 : List Event} (h1 : FetchSetAligned tr1)
    (h2 : FetchSetAligned tr2) : FetchSetAligned (tr1 ++ tr2) := by
  intro j a it r hj
  by_cases hlt : j < tr1.length
  · rw [List.getElem?_append, if_pos hlt] at hj
    have h3 := h1 j a it r hj
    have hb : j + 2 < tr1.length := (List.getElem?_eq_some.mp h3).1
    rw [List.getElem?_append, if_pos hb]
    exact h3
  · push_neg at hlt
    rw [List.getElem?_append, if_neg (by omega)] at hj
    have h3 := h2 (j - tr1.length) a it r hj
    rw [List.getElem?_append, if_neg (by omega)]
    have harith : j + 2 - tr1.length = j - tr1.length + 2 := by omega
    rw [harith]
    exact h3

theorem processShard_aligned_local (svc : Kinesis) (s : Stream) (sh : Shard)
    (st : TickState LocalStore) (tr : List Event)
    (res : StepRes (TickState LocalStore))
    (h : processShard LocalStore.store svc s sh st = (tr, res)) :
    FetchSetAligned tr := by
  rw [processShard_local] at h
  cases hr : svc.GetRecords st.fetchCount s.config.Limit
      (mapGet st.store.m (localKey s.Name sh.ID)) with
  | error e =>
    simp only [hr] at h
    obtain ⟨htr, _⟩ := Prod.mk.inj h
    rw [← htr]
    intro j a it r hj
    rcases j with _ | _ | j <;> simp at hj
  | ok resp =>
    simp only [hr] at h
    obtain ⟨htr, _⟩ := Prod.mk.inj h
    rw [← htr]
    intro j a it r hj
    rcases j with _ | _ | _ | _ | j
    · simp at hj
    · simp only [List.getElem?_cons_succ, List.getElem?_cons_zero,
        Option.some.injEq] at hj
      obtain ⟨ha, hit, hres2⟩ := Event.fetch.inj hj
      rw [← ha, ← Except.ok.inj hres2]
      rfl
    · simp at hj
    · simp at hj
    · simp at hj

theorem seedShard_aligned {σ : Type} {ops : Store σ} {svc : Kinesis}
    {s : Stream} {sh : Shard} {σ0 : σ} {tr : List Event} {res : StepRes σ}
    (h : seedShard ops svc s sh σ0 = (tr, res)) : FetchSetAligned tr := by
  unfold seedShard at h
  cases hr : svc.GetShardIterator sh.ID s.config.IteratorType s.Name with
  | error e =>
    simp only [hr] at h
    obtain ⟨htr, _⟩ := Prod.mk.inj h
    rw [← htr]
    intro j a it r hj
    rcases j with _ | j <;> simp at hj
  | ok resp =>
    simp only [hr] at h
    cases hu : (ops.UpdateShardIterator σ0 s.Name sh.ID
        (StringValue resp.ShardIterator)).2 with
    | some e0 =>
      simp only [hu] at h
      obtain ⟨htr, _⟩ := Prod.mk.inj h
      rw [← htr]
      intro j a it r hj
      rcases j with _ | _ | j <;> simp at hj
    | none =>
      simp only [hu] at h
      obtain ⟨htr, _⟩ := Prod.mk.inj h
      rw [← htr]
      intro j a it r hj
      rcases j with _ | _ | j <;> simp at hj

theorem seedShards_aligned {σ : Type} {ops : Store σ} {svc : Kinesis}
    {s : Stream} :
    ∀ (shards : List Shard) (σ0 : σ) (tr : List Event) (res : StepRes σ),
    seedShards ops svc s shards σ0 = (tr, res) → FetchSetAligned tr := by
  intro shards
  induction shards with
  | nil =>
    intro σ0 tr res h
    simp only [seedShards] at h
    obtain ⟨htr, _⟩ := Prod.mk.inj h
    rw [← htr]
    intro j a it r hj
    simp at hj
  | cons sh rest ih =>
    intro σ0 tr res h
    rcases h1 : seedShard ops svc s sh σ0 with ⟨tr1, r1⟩
    cases r1 with
    | ret e1 =>
      have hx : seedShards ops svc s (sh :: rest) σ0 = (tr1, .ret e1) := by
        simp only [seedShards, h1]
      rw [h] at hx
      obtain ⟨htr, _⟩ := Prod.mk.inj hx
      rw [htr]
      exact seedShard_aligned h1
    | ok σmid =>
      rcases h2 : seedShards ops svc s rest σmid with ⟨tr2, r2⟩
      have hx : seedShards ops svc s (sh :: rest) σ0 = (tr1 ++ tr2, r2) := by
        simp only [seedShards, h1, h2]
      rw [h] at hx
      obtain ⟨htr, _⟩ := Prod.mk.inj hx
      rw [htr]
      exact aligned_append (seedShard_aligned h1) (ih σmid tr2 r2 h2)

theorem processShards_aligned_local (svc : Kinesis) (s : Stream) :
    ∀ (shards : List Shard) (st : TickState LocalStore) (tr : List Event)
      (res : StepRes (TickState LocalStore)),
    processShards LocalStore.store svc s shards st = (tr, res) →
    FetchSetAligned tr := by
  intro shards
  induction shards with
  | nil =>
    intro st tr res h
    simp only [processShards] at h
    obtain ⟨htr, _⟩ := Prod.mk.inj h
    rw [← htr]
    intro j a it r hj
    simp at hj
  | cons sh rest ih =>
    intro st tr res h
    rcases h1 : processShard LocalStore.store svc s sh st with ⟨tr1, r1⟩
    cases r1 with
    | ret e1 =>
      have hx : processShards LocalStore.store svc s (sh :: rest) st =
          (tr1, .ret e1) := by
        simp only [processShards, h1]
      rw [h] at hx
      obtain ⟨htr, _⟩ := Prod.mk.inj hx
      rw [htr]
      exact processShard_aligned_local svc s sh st tr1 _ h1
    | ok st1 =>
      rcases h2 : processShards LocalStore.store svc s rest st1 with ⟨tr2, r2⟩
      have hx : processShards LocalStore.store svc s (sh :: rest) st =
          (tr1 ++ tr2, r2) := by
        simp only [processShards, h1, h2]
      rw [h] at hx
      obtain ⟨htr, _⟩ := Prod.mk.inj hx
      rw [htr]
      exact aligned_append (processShard_aligned_local svc s sh st tr1 _ h1)
        (ih st1 tr2 r2 h2)

theorem iterateTicks_aligned_local (svc : Kinesis) (s : Stream) :
    ∀ (n : Nat) (st : TickState LocalStore) (tr : List Event)
      (res : StepRes (TickState LocalStore)),
    iterateTicks LocalStore.store svc s n st = (tr, res) →
    FetchSetAligned tr := by
  intro n
  induction n with
  | zero =>
    intro st tr res h
    simp only [iterateTicks] at h
    obtain ⟨htr, _⟩ := Prod.mk.inj h
    rw [← htr]
    intro j a it r hj
    simp at hj
  | succ n ih =>
    intro st tr res h
    rcases h1 : tick LocalStore.store svc s st with ⟨tr1, r1⟩
    cases r1 with
    | ret e1 =>
      have hx : iterateTicks LocalStore.store svc s (n + 1) st =
          (tr1, .ret e1) := by
        simp only [iterateTicks, h1]
      rw [h] at hx
      obtain ⟨htr, _⟩ := Prod.mk.inj hx
      rw [htr]
      exact processShards_aligned_local svc s s.Shards st tr1 _ h1
    | ok st1 =>
      rcases h2 : iterateTicks LocalStore.store svc s n st1 with ⟨tr2, r2⟩
      have hx : iterateTicks LocalStore.store svc s (n + 1) st =
          (tr1 ++ tr2, r2) := by
        simp only [iterateTicks, h1, h2]
      rw [h] at hx
      obtain ⟨htr, _⟩ := Prod.mk.inj hx
      rw [htr]
      exact aligned_append
        (processShards_aligned_local svc s s.Shards st tr1 _ h1)
        (ih st1 tr2 r2 h2)

theorem listenN_aligned_local (svc : Kinesis) (s : Stream)
    (σ0 : LocalStore) (n : Nat) (tr : List Event)
    (res : StepRes (TickState LocalStore))
    (h : listenN LocalStore.store svc s σ0 n = (tr, res)) :
    FetchSetAligned tr := by
  rcases h0 : setInitialIterators LocalStore.store svc s σ0 with ⟨tr0, r0⟩
  cases r0 with
  | ret e0 =>
    have hx : listenN LocalStore.store svc s σ0 n = (tr0, .ret e0) := by
      simp only [listenN, h0]
    rw [h] at hx
    obtain ⟨htr, _⟩ := Prod.mk.inj hx
    rw [htr]
    exact seedShards_aligned s.Shards σ0 tr0 _ h0
  | ok σ1 =>
    rcases h1 : iterateTicks LocalStore.store svc s n ⟨σ1, 0⟩ with ⟨tr1, r1⟩
    have hx : listenN LocalStore.store svc s σ0 n = (tr0 ++ tr1, r1) := by
      simp only [listenN, h0, h1]
    rw [h] at hx
    obtain ⟨htr, _⟩ := Prod.mk.inj hx
    rw [htr]
    exact aligned_append (seedShards_aligned s.Shards σ0 tr0 _ h0)
      (iterateTicks_aligned_local svc s n ⟨σ1, 0⟩ tr1 r1 h1)

theorem fetchEvents_of_mem {tr : List Event} {a it : String}
    {fr : Except String GetRecordsOutput}
    (h : Event.fetch a it fr ∈ tr) : (a, it, fr) ∈ fetchEvents tr := by
  induction tr with
  | nil => simp at h
  | cons hd tl ih =>
    rcases List.mem_cons.mp h with rfl | h2
    · simp [fetchEvents]
    · cases hd <;> simp [fetchEvents, ih h2]

theorem seedShard_no_fetch {σ : Type} {ops : Store σ} {svc : Kinesis}
    {s : Stream} {sh : Shard} {σ0 : σ} {tr : List Event} {res : StepRes σ}
    (h : seedShard ops svc s sh σ0 = (tr, res)) : fetchEvents tr = [] := by
  unfold seedShard at h
  cases hr : svc.GetShardIterator sh.ID s.config.IteratorType s.Name with
  | error e =>
    simp only [hr] at h
    obtain ⟨htr, _⟩ := Prod.mk.inj h
    rw [← htr]
    rfl
  | ok resp =>
    simp only [hr] at h
    cases hu : (ops.UpdateShardIterator σ0 s.Name sh.ID
        (StringValue resp.ShardIterator)).2 with
    | some e0 =>
      simp only [hu] at h
      obtain ⟨htr, _⟩ := Prod.mk.inj h
      rw [← htr]
      rfl
    | none =>
      simp only [hu] at h
      obtain ⟨htr, _⟩ := Prod.mk.inj h
      rw [← htr]
      rfl

theorem seedShards_no_fetch {σ : Type} {ops : Store σ} {svc : Kinesis}
    {s : Stream} :
    ∀ (shards : List Shard) (σ0 : σ) (tr : List Event) (res : StepRes σ),
    seedShards ops svc s shards σ0 = (tr, res) → fetchEvents tr = [] := by
  intro shards
  induction shards with
  | nil =>
    intro σ0 tr res h
    simp only [seedShards] at h
    obtain ⟨htr, _⟩ := Prod.mk.inj h
    rw [← htr]
    rfl
  | cons sh rest ih =>
    intro σ0 tr res h
    rcases h1 : seedShard ops svc s sh σ0 with ⟨tr1, r1⟩
    cases r1 with
    | ret e1 =>
      have hx : seedShards ops svc s (sh :: rest) σ0 = (tr1, .ret e1) := by
        simp only [seedShards, h1]
      rw [h] at hx
      obtain ⟨htr, _⟩ := Prod.mk.inj hx
      rw [htr]
      exact seedShard_no_fetch h1
    | ok σmid =>
      rcases h2 : seedShards ops svc s rest σmid with ⟨tr2, r2⟩
      have hx : seedShards ops svc s (sh :: rest) σ0 = (tr1 ++ tr2, r2) := by
        simp only [seedShards, h1, h2]
      rw [h] at hx
      obtain ⟨htr, _⟩ := Prod.mk.inj hx
      rw [htr, fetchEvents_append, seedShard_no_fetch h1,
        ih σmid tr2 r2 h2]
      rfl

/-- C1: against the reference store with no other writer, the iterator passed
to each fetch of a single-shard stream equals the `aws.StringValue` of
the next-shard-iterator returned by the previous (successful) fetch; and
every successful fetch, whatever its batch, is followed two events later
by the store write of the returned next token. -/
theorem listen_monotonic_handoff (svc : Kinesis) (s : Stream) (sh : Shard)
    (σ0 : LocalStore) (n : Nat) (tr : List Event)
    (res : StepRes (TickState LocalStore))
    (hs : s.Shards = [sh])
    (hrun : listenN LocalStore.store svc s σ0 n = (tr, res)) :
    (∀ (j : Nat) (a it : String) (r : GetRecordsOutput) (a' it' : String)
       (r' : Except String GetRecordsOutput),
      (fetchEvents tr)[j]? = some (a, it, Except.ok r) →
      (fetchEvents tr)[j+1]? = some (a', it', r') →
      it' = StringValue r.NextShardIterator) ∧
    (∀ (j : Nat) (a it : String) (r : GetRecordsOutput),
      tr[j]? = some (.fetch a it (Except.ok r)) →
      tr[j+2]? = some (.storeSet a (StringValue r.NextShardIterator) none)) := by
  constructor
  · rcases h0 : setInitialIterators LocalStore.store svc s σ0 with ⟨tr0, r0⟩
    cases r0 with
    | ret e0 =>
      have hx : listenN LocalStore.store svc s σ0 n = (tr0, .ret e0) := by
        simp only [listenN, h0]
      rw [hrun] at hx
      obtain ⟨htr, _⟩ := Prod.mk.inj hx
      subst htr
      intro j a it r a' it' r' h1 h2
      rw [seedShards_no_fetch s.Shards σ0 tr _ h0] at h1
      simp at h1
    | ok σ1 =>
      rcases h1 : iterateTicks LocalStore.store svc s n ⟨σ1, 0⟩ with ⟨tr1, r1⟩
      have hx : listenN LocalStore.store svc s σ0 n = (tr0 ++ tr1, r1) := by
        simp only [listenN, h0, h1]
      rw [hrun] at hx
      obtain ⟨htr, _⟩ := Prod.mk.inj hx
      subst htr
      intro j a it r a' it' r' hj1 hj2
      rw [fetchEvents_append, seedShards_no_fetch s.Shards σ0 tr0 _ h0,
        List.nil_append] at hj1 hj2
      exact fetchChainFrom_consecutive (fetchEvents tr1) _ j a it r a' it' r'
        (iterateTicks_chain svc s sh hs n ⟨σ1, 0⟩ tr1 r1 h1) hj1 hj2
  · exact listenN_aligned_local svc s σ0 n tr res hrun

/-- C1 witness: the handoff theorem at a concrete two-tick run. -/
theorem listen_monotonic_handoff_witness :
    ("n0" : String) =
      StringValue (GetRecordsOutput.mk [] (some "n0")).NextShardIterator ∧
    trChainW[5]? = some (.storeSet "sh"
      (StringValue (GetRecordsOutput.mk [] (some "n0")).NextShardIterator)
      none) := by
  have h := listen_monotonic_handoff svcChainW sOne ⟨"sh", "0"⟩ NewLocalStore
    2 trChainW (.ok ⟨⟨[("st-sh", "n1")]⟩, 2⟩) rfl rfl
  exact ⟨h.1 0 "sh" "it0" ⟨[], some "n0"⟩ "sh" "n0"
      (Except.ok ⟨[], some "n1"⟩) rfl rfl,
    h.2 3 "sh" "it0" ⟨[], some "n0"⟩ rfl⟩

theorem seedShards_good (svc : Kinesis) (s : Stream)
    (hseedTok : ∀ a o,
      svc.GetShardIterator a s.config.IteratorType s.Name = Except.ok o →
      StringValue o.ShardIterator ≠ "") :
    ∀ (shards : List Shard) (σ0 : LocalStore) (tr : List Event)
      (σ1 : LocalStore),
    seedShards LocalStore.store svc s shards σ0 = (tr, .ok σ1) →
    (∀ sh ∈ shards, mapGet σ1.m (localKey s.Name sh.ID) ≠ "") ∧
    (∀ k, mapGet σ0.m k ≠ "" → mapGet σ1.m k ≠ "") := by
  intro shards
  induction shards with
  | nil =>
    intro σ0 tr σ1 h
    simp only [seedShards] at h
    have hσ : σ0 = σ1 := StepRes.ok.inj (Prod.mk.inj h).2
    subst hσ
    exact ⟨by intro sh hsh; simp at hsh, fun k hk => hk⟩
  | cons sh rest ih =>
    intro σ0 tr σ1 h
    cases ho : svc.GetShardIterator sh.ID s.config.IteratorType s.Name with
    | error e =>
      have hx : seedShards LocalStore.store svc s (sh :: rest) σ0 =
          ([.seedIter sh.ID (.error e)], .ret (some e)) := by
        simp only [seedShards, seedShard, ho]
      rw [h] at hx
      exact absurd (Prod.mk.inj hx).2 (by simp)
    | ok o =>
      rcases h2 : seedShards LocalStore.store svc s rest
          ⟨mapSet σ0.m (localKey s.Name sh.ID)
            (StringValue o.ShardIterator)⟩ with ⟨tr2, r2⟩
      have hx : seedShards LocalStore.store svc s (sh :: rest) σ0 =
          ([.seedIter sh.ID (.ok o),
            .seedStore sh.ID (StringValue o.ShardIterator) none] ++ tr2,
           r2) := by
        simp only [seedShards, seedShard, ho, localStore_store_update, h2]
      rw [h] at hx
      obtain ⟨_, hres⟩ := Prod.mk.inj hx
      subst hres
      obtain ⟨ih1, ih2⟩ := ih _ tr2 σ1 h2
      have hpres : ∀ k, mapGet σ0.m k ≠ "" →
          mapGet σ1.m k ≠ "" := by
        intro k hk
        refine ih2 k ?_
        rw [mapGet_mapSet]
        by_cases hkk : k = localKey s.Name sh.ID
        · rw [if_pos hkk]
          exact hseedTok sh.ID o ho
        · rw [if_neg hkk]
          exact hk
      refine ⟨?_, hpres⟩
      intro x hx2
      rcases List.mem_cons.mp hx2 with rfl | hx2
      · refine ih2 _ ?_
        rw [mapGet_mapSet, if_pos rfl]
        exact hseedTok x.ID o ho
      · exact ih1 x hx2

theorem processShards_good (svc : Kinesis) (s : Stream)
    (hnext : ∀ i lim it r, svc.GetRecords i lim it = Except.ok r →
      StringValue r.NextShardIterator ≠ "") :
    ∀ (shards : List Shard) (st : TickState LocalStore) (tr : List Event)
      (res : StepRes (TickState LocalStore)),
    processShards LocalStore.store svc s shards st = (tr, res) →
    (∀ sh ∈ shards, sh ∈ s.Shards) →
    GoodPos s st.store →
    (∀ a it fr, Event.fetch a it fr ∈ tr → it ≠ "") ∧
    (∀ st', res = .ok st' → GoodPos s st'.store) := by
  intro shards
  induction shards with
  | nil =>
    intro st tr res h hsub hgp
    simp only [processShards] at h
    obtain ⟨htr, hres⟩ := Prod.mk.inj h
    constructor
    · intro a it fr hmem
      rw [← htr] at hmem
      simp at hmem
    · intro st' hok
      rw [← hres] at hok
      rw [← StepRes.ok.inj hok]
      exact hgp
  | cons sh rest ih =>
    intro st tr res h hsub hgp
    have hpos : mapGet st.store.m (localKey s.Name sh.ID) ≠ "" :=
      hgp sh (hsub sh (List.mem_cons_self _ _))
    have hblock := processShard_local svc s sh st
    cases hr : svc.GetRecords st.fetchCount s.config.Limit
        (mapGet st.store.m (localKey s.Name sh.ID)) with
    | error e =>
      simp only [hr] at hblock
      have hx : processShards LocalStore.store svc s (sh :: rest) st =
          ([.storeGet sh.ID (mapGet st.store.m (localKey s.Name sh.ID), none),
            .fetch sh.ID (mapGet st.store.m (localKey s.Name sh.ID))
              (.error e)],
           .ret (some e)) := by
        simp only [processShards, hblock]
      rw [h] at hx
      obtain ⟨htr, hres⟩ := Prod.mk.inj hx
      constructor
      · intro a it fr hmem
        rw [htr] at hmem
        simp only [List.mem_cons, List.not_mem_nil, or_false] at hmem
        rcases hmem with hmem | hmem
        · exact absurd hmem (by simp)
        · rw [(Event.fetch.inj hmem).2.1]
          exact hpos
      · intro st' hok
        rw [hres] at hok
        exact absurd hok (by simp)
    | ok resp =>
      simp only [hr] at hblock
      rcases h2 : processShards LocalStore.store svc s rest
          ⟨⟨mapSet st.store.m (localKey s.Name sh.ID)
            (StringValue resp.NextShardIterator)⟩, st.fetchCount + 1⟩
        with ⟨tr2, r2⟩
      have hx : processShards LocalStore.store svc s (sh :: rest) st =
          ([.storeGet sh.ID (mapGet st.store.m (localKey s.Name sh.ID), none),
            .fetch sh.ID (mapGet st.store.m (localKey s.Name sh.ID))
              (.ok resp),
            .dispatch resp.Records,
            .storeSet sh.ID (StringValue resp.NextShardIterator) none]
            ++ tr2, r2) := by
        simp only [processShards, hblock, h2]
      rw [h] at hx
      obtain ⟨htr, hres⟩ := Prod.mk.inj hx
      subst hres
      have hgp1 : GoodPos s
          (⟨mapSet st.store.m (localKey s.Name sh.ID)
            (StringValue resp.NextShardIterator)⟩ : LocalStore) := by
        intro x hxm
        rw [mapGet_mapSet]
        by_cases hkk : localKey s.Name x.ID = localKey s.Name sh.ID
        · rw [if_pos hkk]
          exact hnext _ _ _ resp hr
        · rw [if_neg hkk]
          exact hgp x hxm
      obtain ⟨ih1, ih2⟩ := ih ⟨⟨mapSet st.store.m (localKey s.Name sh.ID)
          (StringValue resp.NextShardIterator)⟩, st.fetchCount + 1⟩
        tr2 res h2 (fun x hxm => hsub x (List.mem_cons_of_mem _ hxm)) hgp1
      constructor
      · intro a it fr hmem
        rw [htr] at hmem
        rcases List.mem_append.mp hmem with hmem | hmem
        · simp only [List.mem_cons, List.not_mem_nil, or_false] at hmem
          rcases hmem with hmem | hmem | hmem | hmem
          · exact absurd hmem (by simp)
          · rw [(Event.fetch.inj hmem).2.1]
            exact hpos
          · exact absurd hmem (by simp)
          · exact absurd hmem (by simp)
        · exact ih1 a it fr hmem
      · exact ih2

theorem iterateTicks_good (svc : Kinesis) (s : Stream)
    (hnext : ∀ i lim it r, svc.GetRecords i lim it = Except.ok r →
      StringValue r.NextShardIterator ≠ "") :
    ∀ (n : Nat) (st : TickState LocalStore) (tr : List Event)
      (res : StepRes (TickState LocalStore)),
    iterateTicks LocalStore.store svc s n st = (tr, res) →
    GoodPos s st.store →
    ∀ a it fr, Event.fetch a it fr ∈ tr → it ≠ "" := by
  intro n
  induction n with
  | zero =>
    intro st tr res h hgp a it fr hmem
    simp only [iterateTicks] at h
    rw [← (Prod.mk.inj h).1] at hmem
    simp at hmem
  | succ n ih =>
    intro st tr res h hgp a it fr hmem
    rcases h1 : tick LocalStore.store svc s st with ⟨tr1, r1⟩
    cases r1 with
    | ret e1 =>
      have hx : iterateTicks LocalStore.store svc s (n + 1) st =
          (tr1, .ret e1) := by
        simp only [iterateTicks, h1]
      rw [h] at hx
      rw [(Prod.mk.inj hx).1] at hmem
      exact (processShards_good svc s hnext s.Shards st tr1 _ h1
        (fun x hxm => hxm) hgp).1 a it fr hmem
    | ok st1 =>
      rcases h2 : iterateTicks LocalStore.store svc s n st1 with ⟨tr2, r2⟩
      have hx : iterateTicks LocalStore.store svc s (n + 1) st =
          (tr1 ++ tr2, r2) := by
        simp only [iterateTicks, h1, h2]
      rw [h] at hx
      rw [(Prod.mk.inj hx).1] at hmem
      obtain ⟨hg1, hg2⟩ := processShards_good svc s hnext s.Shards st tr1 _
        h1 (fun x hxm => hxm) hgp
      rcases List.mem_append.mp hmem with hmem | hmem
      · exact hg1 a it fr hmem
      · exact ih st1 tr2 r2 h2 (hg2 st1 rfl) a it fr hmem

theorem processShard_fetch_shard {σ : Type} {ops : Store σ} {svc : Kinesis}
    {s : Stream} {sh : Shard} {st : TickState σ} {tr : List Event}
    {res : StepRes (TickState σ)}
    (h : processShard ops svc s sh st = (tr, res)) :
    ∀ a it fr, Event.fetch a it fr ∈ tr → a = sh.ID := by
  unfold processShard at h
  cases hg : (ops.GetShardIterator st.store s.Name sh.ID).2 with
  | some e0 =>
    simp only [hg] at h
    obtain ⟨htr, _⟩ := Prod.mk.inj h
    intro a it fr hmem
    rw [← htr] at hmem
    simp at hmem
  | none =>
    simp only [hg] at h
    cases hr : svc.GetRecords st.fetchCount s.config.Limit
        (ops.GetShardIterator st.store s.Name sh.ID).1 with
    | error e0 =>
      simp only [hr] at h
      obtain ⟨htr, _⟩ := Prod.mk.inj h
      intro a it fr hmem
      rw [← htr] at hmem
      simp only [List.mem_cons, List.not_mem_nil, or_false] at hmem
      rcases hmem with hmem | hmem
      · exact absurd hmem (by simp)
      · exact (Event.fetch.inj hmem).1
    | ok resp =>
      simp only [hr] at h
      cases hu : (ops.UpdateShardIterator st.store s.Name sh.ID
          (StringValue resp.NextShardIterator)).2 with
      | some e0 =>
        simp only [hu] at h
        obtain ⟨htr, _⟩ := Prod.mk.inj h
        intro a it fr hmem
        rw [← htr] at hmem
        simp only [List.mem_cons, List.not_mem_nil, or_false] at hmem
        rcases hmem with hmem | hmem | hmem | hmem
        · exact absurd hmem (by simp)
        · exact (Event.fetch.inj hmem).1
        · exact absurd hmem (by simp)
        · exact absurd hmem (by simp)
      | none =>
        simp only [hu] at h
        obtain ⟨htr, _⟩ := Prod.mk.inj h
        intro a it fr hmem
        rw [← htr] at hmem
        simp only [List.mem_cons, List.not_mem_nil, or_false] at hmem
        rcases hmem with hmem | hmem | hmem | hmem
        · exact absurd hmem (by simp)
        · exact (Event.fetch.inj hmem).1
        · exact absurd hmem (by simp)
        · exact absurd hmem (by simp)

theorem processShards_fetch_shard {σ : Type} {ops : Store σ} {svc : Kinesis}
    {s : Stream} :
    ∀ (shards : List Shard) (st : TickState σ) (tr : List Event)
      (res : StepRes (TickState σ)),
    processShards ops svc s shards st = (tr, res) →
    ∀ a it fr, Event.fetch a it fr ∈ tr → a ∈ shards.map Shard.ID := by
  intro shards
  induction shards with
  | nil =>
    intro st tr res h a it fr hmem
    simp only [processShards] at h
    rw [← (Prod.mk.inj h).1] at hmem
    simp at hmem
  | cons sh rest ih =>
    intro st tr res h a it fr hmem
    rcases h1 : processShard ops svc s sh st with ⟨tr1, r1⟩
    cases r1 with
    | ret e1 =>
      have hx : processShards ops svc s (sh :: rest) st = (tr1, .ret e1) := by
        simp only [processShards, h1]
      rw [h] at hx
      rw [(Prod.mk.inj hx).1] at hmem
      rw [List.map_cons, processShard_fetch_shard h1 a it fr hmem]
      exact List.mem_cons_self _ _
    | ok st1 =>
      rcases h2 : processShards ops svc s rest st1 with ⟨tr2, r2⟩
      have hx : processShards ops svc s (sh :: rest) st =
          (tr1 ++ tr2, r2) := by
        simp only [processShards, h1, h2]
      rw [h] at hx
      rw [(Prod.mk.inj hx).1] at hmem
      rcases List.mem_append.mp hmem with hmem | hmem
      · rw [List.map_cons, processShard_fetch_shard h1 a it fr hmem]
        exact List.mem_cons_self _ _
      · rw [List.map_cons]
        exact List.mem_cons_of_mem _ (ih st1 tr2 r2 h2 a it fr hmem)

theorem iterateTicks_fetch_shard {σ : Type} {ops : Store σ} {svc : Kinesis}
    {s : Stream} :
    ∀ (n : Nat) (st : TickState σ) (tr : List Event)
      (res : StepRes (TickState σ)),
    iterateTicks ops svc s n st = (tr, res) →
    ∀ a it fr, Event.fetch a it fr ∈ tr → a ∈ s.Shards.map Shard.ID := by
  intro n
  induction n with
  | zero =>
    intro st tr res h a it fr hmem
    simp only [iterateTicks] at h
    rw [← (Prod.mk.inj h).1] at hmem
    simp at hmem
  | succ n ih =>
    intro st tr res h a it fr hmem
    rcases h1 : tick ops svc s st with ⟨tr1, r1⟩
    cases r1 with
    | ret e1 =>
      have hx : iterateTicks ops svc s (n + 1) st = (tr1, .ret e1) := by
        simp only [iterateTicks, h1]
      rw [h] at hx
      rw [(Prod.mk.inj hx).1] at hmem
      exact processShards_fetch_shard s.Shards st tr1 _ h1 a it fr hmem
    | ok st1 =>
      rcases h2 : iterateTicks ops svc s n st1 with ⟨tr2, r2⟩
      have hx : iterateTicks ops svc s (n + 1) st = (tr1 ++ tr2, r2) := by
        simp only [iterateTicks, h1, h2]
      rw [h] at hx
      rw [(Prod.mk.inj hx).1] at hmem
      rcases List.mem_append.mp hmem with hmem | hmem
      · exact processShards_fetch_shard s.Shards st tr1 _ h1 a it fr hmem
      · exact ih st1 tr2 r2 h2 a it fr hmem

theorem seedShard_ok_shape {σ : Type} {ops : Store σ} {svc : Kinesis}
    {s : Stream} {sh : Shard} {σ0 : σ} {tr : List Event} {σ1 : σ}
    (h : seedShard ops svc s sh σ0 = (tr, .ok σ1)) :
    ∃ resp, svc.GetShardIterator sh.ID s.config.IteratorType s.Name =
        Except.ok resp ∧
      tr = [.seedIter sh.ID (.ok resp),
            .seedStore sh.ID (StringValue resp.ShardIterator) none] := by
  unfold seedShard at h
  cases hr : svc.GetShardIterator sh.ID s.config.IteratorType s.Name with
  | error e => simp [hr] at h
  | ok resp =>
    simp only [hr] at h
    cases hu : (ops.UpdateShardIterator σ0 s.Name sh.ID
        (StringValue resp.ShardIterator)).2 with
    | some e0 => simp [hu] at h
    | none =>
      simp only [hu] at h
      exact ⟨resp, rfl, (Prod.mk.inj h).1.symm⟩

theorem seedShards_has_seedStore {σ : Type} {ops : Store σ} {svc : Kinesis}
    {s : Stream} :
    ∀ (shards : List Shard) (σ0 : σ) (tr : List Event) (σ1 : σ),
    seedShards ops svc s shards σ0 = (tr, .ok σ1) →
    ∀ idv ∈ shards.map Shard.ID,
    ∃ (i : Nat) (tok : String) (uerr : Option String),
      tr[i]? = some (Event.seedStore idv tok uerr) := by
  intro shards
  induction shards with
  | nil =>
    intro σ0 tr σ1 h idv hidv
    simp at hidv
  | cons sh rest ih =>
    intro σ0 tr σ1 h idv hidv
    rcases h1 : seedShard ops svc s sh σ0 with ⟨tr1, r1⟩
    cases r1 with
    | ret e1 =>
      have hx : seedShards ops svc s (sh :: rest) σ0 = (tr1, .ret e1) := by
        simp only [seedShards, h1]
      rw [h] at hx
      exact absurd (Prod.mk.inj hx).2.symm (by simp)
    | ok σmid =>
      rcases h2 : seedShards ops svc s rest σmid with ⟨tr2, r2⟩
      have hx : seedShards ops svc s (sh :: rest) σ0 = (tr1 ++ tr2, r2) := by
        simp only [seedShards, h1, h2]
      rw [h] at hx
      obtain ⟨htr, hres⟩ := Prod.mk.inj hx
      obtain ⟨resp, _, htr1⟩ := seedShard_ok_shape h1
      rw [List.map_cons] at hidv
      rcases List.mem_cons.mp hidv with rfl | hidv2
      · refine ⟨1, StringValue resp.ShardIterator, none, ?_⟩
        rw [htr, htr1]
        simp [List.getElem?_append]
      · rw [← hres] at h2
        obtain ⟨i2, tok, uerr, hi2⟩ := ih σmid tr2 σ1 h2 idv hidv2
        refine ⟨tr1.length + i2, tok, uerr, ?_⟩
        rw [htr, List.getElem?_append_right (by omega)]
        have harith : tr1.length + i2 - tr1.length = i2 := by omega
        rw [harith]
        exact hi2

/-- C6 (amended): provided every seeding response and every successful fetch
response carries a non-empty token, no `GetRecords` call of the listen
loop is ever issued with an empty iterator string, and every fetch for a
shard is preceded in the trace by the seeding store-write for that shard. -/
theorem listen_nonempty_iterator_of_nonempty_tokens (svc : Kinesis)
    (s : Stream) (σ0 : LocalStore) (n : Nat) (tr : List Event)
    (res : StepRes (TickState LocalStore))
    (hrun : listenN LocalStore.store svc s σ0 n = (tr, res))
    (hseedTok : ∀ a o,
      svc.GetShardIterator a s.config.IteratorType s.Name = Except.ok o →
      StringValue o.ShardIterator ≠ "")
    (hnext : ∀ i lim it r, svc.GetRecords i lim it = Except.ok r →
      StringValue r.NextShardIterator ≠ "")
    (j : Nat) (a it : String) (fr : Except String GetRecordsOutput)
    (hj : tr[j]? = some (.fetch a it fr)) :
    it ≠ "" ∧ ∃ i, i < j ∧ ∃ (tok : String) (uerr : Option String),
      tr[i]? = some (Event.seedStore a tok uerr) := by
  rcases h0 : setInitialIterators LocalStore.store svc s σ0 with ⟨tr0, r0⟩
  cases r0 with
  | ret e0 =>
    have hx : listenN LocalStore.store svc s σ0 n = (tr0, .ret e0) := by
      simp only [listenN, h0]
    rw [hrun] at hx
    obtain ⟨htr, _⟩ := Prod.mk.inj hx
    subst htr
    exfalso
    have hmem := fetchEvents_of_mem (List.getElem?_mem hj)
    rw [seedShards_no_fetch s.Shards σ0 tr _ h0] at hmem
    simp at hmem
  | ok σ1 =>
    rcases h1 : iterateTicks LocalStore.store svc s n ⟨σ1, 0⟩ with ⟨tr1, r1⟩
    have hx : listenN LocalStore.store svc s σ0 n = (tr0 ++ tr1, r1) := by
      simp only [listenN, h0, h1]
    rw [hrun] at hx
    obtain ⟨htr, _⟩ := Prod.mk.inj hx
    subst htr
    have hjge : tr0.length ≤ j := by
      by_contra hcon
      push_neg at hcon
      rw [List.getElem?_append, if_pos hcon] at hj
      have hmem := fetchEvents_of_mem (List.getElem?_mem hj)
      rw [seedShards_no_fetch s.Shards σ0 tr0 _ h0] at hmem
      simp at hmem
    rw [List.getElem?_append, if_neg (by omega)] at hj
    have hmem1 : Event.fetch a it fr ∈ tr1 := List.getElem?_mem hj
    have hgp : GoodPos s σ1 :=
      (seedShards_good svc s hseedTok s.Shards σ0 tr0 σ1 h0).1
    constructor
    · exact iterateTicks_good svc s hnext n ⟨σ1, 0⟩ tr1 r1 h1 hgp a it fr hmem1
    · have hsh : a ∈ s.Shards.map Shard.ID :=
        iterateTicks_fetch_shard n ⟨σ1, 0⟩ tr1 r1 h1 a it fr hmem1
      obtain ⟨i, tok, uerr, hi⟩ :=
        seedShards_has_seedStore s.Shards σ0 tr0 σ1 h0 a hsh
      have hilt : i < tr0.length := (List.getElem?_eq_some.mp hi).1
      refine ⟨i, by omega, tok, uerr, ?_⟩
      rw [List.getElem?_append, if_pos hilt]
      exact hi

/-- C6 amended-claim witness: the non-empty-iterator theorem at the first
fetch of a concrete two-tick run whose tokens are all non-empty. -/
theorem listen_nonempty_iterator_witness :
    ("it0" : String) ≠ "" ∧ ∃ i, i < 3 ∧ ∃ (tok : String)
      (uerr : Option String),
      trChainW[i]? = some (Event.seedStore "sh" tok uerr) := by
  refine listen_nonempty_iterator_of_nonempty_tokens svcChainW sOne
    NewLocalStore 2 trChainW (.ok ⟨⟨[("st-sh", "n1")]⟩, 2⟩) rfl ?_ ?_
    3 "sh" "it0" (Except.ok ⟨[], some "n0"⟩) rfl
  · intro a o h
    rw [← Except.ok.inj h]
    decide
  · intro i lim it r h
    rw [← Except.ok.inj h]
    intro hcon
    have hd := congrArg String.data hcon
    simp [StringValue, String.data_append] at hd

end KCL
